import Mathlib

/-!
Verification of the max-flow core of the logistics repository (task_1.py):
the Edmonds-Karp engine over a dense capacity matrix, its BFS augmenting-path
search, the capacity-matrix builder and the flow-table decomposer.

The numeric values of the program are Python integers together with the
floating-point infinities produced by `float("inf")` on the virtual-terminal
edges.  Arithmetic on these values follows IEEE semantics: `inf - inf = nan`,
comparisons against `nan` are false, and `min` keeps its first argument
unless the second compares strictly smaller.  The type `Val` embeds exactly
these values and operations.
-/

namespace Task1

/-- A Python numeric value as used by task_1.py: an exact integer, one of the
two floating infinities, or `nan` (which arises from `inf - inf`). -/
inductive Val where
  | num (z : ℤ)
  | inf
  | ninf
  | nan
deriving DecidableEq, Repr

namespace Val

/-- Python unary minus. -/
def vneg : Val → Val
  | num z => num (-z)
  | inf => ninf
  | ninf => inf
  | nan => nan

/-- Python addition on these values (IEEE rules for the infinities). -/
def vadd : Val → Val → Val
  | num a, num b => num (a + b)
  | num _, inf => inf
  | num _, ninf => ninf
  | inf, num _ => inf
  | inf, inf => inf
  | inf, ninf => nan
  | ninf, num _ => ninf
  | ninf, inf => nan
  | ninf, ninf => ninf
  | nan, _ => nan
  | _, nan => nan

/-- Python subtraction: `a - b = a + (-b)`. -/
def vsub (a b : Val) : Val := vadd a (vneg b)

/-- Python strict comparison `a < b`; any comparison involving `nan` is false. -/
def vlt : Val → Val → Bool
  | num a, num b => a < b
  | num _, inf => true
  | num _, ninf => false
  | inf, _ => false
  | ninf, num _ => true
  | ninf, inf => true
  | ninf, ninf => false
  | nan, _ => false
  | _, nan => false

/-- Python comparison `a <= b`; any comparison involving `nan` is false. -/
def vle : Val → Val → Bool
  | num a, num b => a ≤ b
  | num _, inf => true
  | num _, ninf => false
  | inf, num _ => false
  | inf, inf => true
  | inf, ninf => false
  | ninf, _ => true
  | nan, _ => false
  | _, nan => false

/-- Python `min(a, b)`: keeps `a` unless `b` compares strictly smaller. -/
def vmin (a b : Val) : Val := if vlt b a then b else a

/-- Positivity test: `vpos v` holds when the program's test `v > 0` succeeds. -/
def vpos (v : Val) : Bool := vlt (num 0) v

instance : Zero Val := ⟨num 0⟩

instance : Add Val := ⟨vadd⟩

instance : AddCommMonoid Val where
  add_assoc := by
    intro a b c
    show vadd (vadd a b) c = vadd a (vadd b c)
    cases a <;> cases b <;> cases c <;> simp [vadd] <;> omega
  zero_add := by
    intro a
    show vadd (num 0) a = a
    cases a <;> simp [vadd]
  add_zero := by
    intro a
    show vadd a (num 0) = a
    cases a <;> simp [vadd]
  add_comm := by
    intro a b
    show vadd a b = vadd b a
    cases a <;> cases b <;> simp [vadd] <;> omega
  nsmul := nsmulRec

end Val

open Val

/-- A dense `n × n` matrix of program values, indexed like the Python lists of
lists used for `capacity` and `flow`. -/
abbrev Mat (n : ℕ) : Type := Fin n → Fin n → Val

/-- Writing a single entry of a matrix (`m[i][j] = x`). -/
def setF {n : ℕ} (m : Mat n) (i j : Fin n) (x : Val) : Mat n :=
  fun a b => if a = i ∧ b = j then x else m a b

/-- The residual capacity `capacity[u][v] - flow[u][v]` of task_1.py. -/
def residual {n : ℕ} (cap flow : Mat n) (u v : Fin n) : Val :=
  vsub (cap u v) (flow u v)

/-- The BFS traversability test `capacity[u][v] - flow[u][v] > 0`. -/
def resPos {n : ℕ} (cap flow : Mat n) (u v : Fin n) : Bool :=
  vpos (residual cap flow u v)

/-- The body of the `for v in range(len(capacity))` loop of `bfs` in
task_1.py, scanning the neighbours `vs` of the dequeued node `u`.  It updates
the visited array, the parent array and the queue, and reports whether the
sink was reached (in which case the scan stops immediately, mirroring the
`return True`). -/
def bfsInner {n : ℕ} (cap flow : Mat n) (sink u : Fin n) :
    List (Fin n) → (Fin n → Bool) → (Fin n → Option (Fin n)) → List (Fin n) →
    ((Fin n → Bool) × (Fin n → Option (Fin n)) × List (Fin n) × Bool)
  | [], vis, par, q => (vis, par, q, false)
  | v :: vs, vis, par, q =>
    if vis v = false ∧ resPos cap flow u v = true then
      let par2 := Function.update par v (some u)
      let vis2 := Function.update vis v true
      if v = sink then (vis2, par2, q, true)
      else bfsInner cap flow sink u vs vis2 par2 (q ++ [v])
    else bfsInner cap flow sink u vs vis par q

/-- The `while queue:` loop of `bfs` in task_1.py.  The structural `fuel`
argument bounds the number of dequeue operations; since every enqueued node
is freshly visited, `n` dequeues always suffice (proved below), so running
the loop with fuel `n` is the exact behaviour of the unbounded Python loop. -/
def bfsLoop {n : ℕ} (cap flow : Mat n) (sink : Fin n) :
    ℕ → List (Fin n) → (Fin n → Bool) → (Fin n → Option (Fin n)) →
    (Bool × (Fin n → Option (Fin n)))
  | _, [], _, par => (false, par)
  | 0, _ :: _, _, par => (false, par)
  | fuel + 1, u :: q, vis, par =>
    match bfsInner cap flow sink u (List.finRange n) vis par q with
    | (_, par2, _, true) => (true, par2)
    | (vis2, par2, q2, false) => bfsLoop cap flow sink fuel q2 vis2 par2

/-- Embedding of `bfs(capacity, flow, source, sink, parent)` of task_1.py: returns the
`True`/`False` result together with the parent array it has mutated. -/
def bfs {n : ℕ} (cap flow : Mat n) (source sink : Fin n)
    (par : Fin n → Option (Fin n)) : Bool × (Fin n → Option (Fin n)) :=
  bfsLoop cap flow sink n [source]
    (Function.update (fun _ => false) source true) par

/-- The first `while s != source` walk of `edmonds_karp`: recompute the
bottleneck `path_flow` by walking the parent pointers from the sink.  The
accumulator starts at `float("inf")`; `fuel` bounds the walk (the parent
chain produced by a successful BFS reaches the source in fewer than `n`
steps, proved below). -/
def walkMin {n : ℕ} (cap flow : Mat n) (par : Fin n → Option (Fin n))
    (source : Fin n) : ℕ → Fin n → Val → Val
  | 0, _, acc => acc
  | fuel + 1, v, acc =>
    if v = source then acc
    else
      match par v with
      | none => acc
      | some u => walkMin cap flow par source fuel u
          (vmin acc (residual cap flow u v))

/-- The second `while v != source` walk of `edmonds_karp`: push `path_flow`
along the augmenting path, `flow[u][v] += path_flow; flow[v][u] -= path_flow`. -/
def walkAug {n : ℕ} (par : Fin n → Option (Fin n)) (source : Fin n)
    (pf : Val) : ℕ → Fin n → Mat n → Mat n
  | 0, _, f => f
  | fuel + 1, v, f =>
    if v = source then f
    else
      match par v with
      | none => f
      | some u =>
        let f1 := setF f u v (vadd (f u v) pf)
        let f2 := setF f1 v u (vsub (f1 v u) pf)
        walkAug par source pf fuel u f2

/-- The mutable state of `edmonds_karp`: the flow matrix, the parent array
(which persists across BFS calls) and the accumulated `max_flow`. -/
structure EK (n : ℕ) where
  flow : Mat n
  par : Fin n → Option (Fin n)
  mf : Val

/-- The state of `edmonds_karp` just before its `while` loop:
`flow = [[0] * n ...]`, `parent = [-1] * n`, `max_flow = 0`. -/
def ekInit (n : ℕ) : EK n := ⟨fun _ _ => num 0, fun _ => none, num 0⟩

/-- The `while bfs(...)` loop of `edmonds_karp`, with a structural fuel bound
on the number of iterations.  When `bfs` reports no augmenting path the loop
exits (further fuel is ignored); otherwise one augmentation is performed. -/
def ekLoop {n : ℕ} (cap : Mat n) (source sink : Fin n) :
    ℕ → EK n → EK n
  | 0, st => st
  | fuel + 1, st =>
    match bfs cap st.flow source sink st.par with
    | (false, par2) => ⟨st.flow, par2, st.mf⟩
    | (true, par2) =>
      let pf := walkMin cap st.flow par2 source n sink Val.inf
      let f2 := walkAug par2 source pf n sink st.flow
      ekLoop cap source sink fuel ⟨f2, par2, vadd st.mf pf⟩

/-- Embedding of `edmonds_karp(capacity, source, sink)` of task_1.py, run with `fuel`
iterations of the outer loop available; returns `(max_flow, flow)`. -/
def edmonds_karp {n : ℕ} (fuel : ℕ) (cap : Mat n) (source sink : Fin n) :
    Val × Mat n :=
  let st := ekLoop cap source sink fuel (ekInit n)
  (st.mf, st.flow)

/-- Embedding of `build_capacity_matrix(G, node_indices)` of task_1.py: starting from the
all-zero matrix, write `matrix[i][j] = weight` for every edge `(u, v, weight)`
of the graph, translating node names through `node_indices`.  Note that the
code performs no validation of the weights, although its docstring promises a
`ValueError` for non-positive capacities. -/
def build_capacity_matrix {α : Type} {n : ℕ} (edges : List (α × α × Val))
    (node_indices : α → Fin n) : Mat n :=
  edges.foldl
    (fun m e => setF m (node_indices e.1) (node_indices e.2.1) e.2.2)
    (fun _ _ => num 0)

/-- The per-pair accumulation of `print_flow_table` in task_1.py: for a fixed
terminal and store, add `min(flow[w][store], flow[term][w])` over the
warehouses `w` for which both flows are strictly positive. -/
def tableEntry {n : ℕ} (flow : Mat n) (warehouses : List (Fin n))
    (term store : Fin n) : Val :=
  warehouses.foldl
    (fun acc w =>
      if vpos (flow w store) = true ∧ vpos (flow term w) = true then
        vadd acc (vmin (flow w store) (flow term w))
      else acc)
    (num 0)

/-- Embedding of `print_flow_table` of task_1.py, with the console output abstracted into
the list of `(terminal, store) ↦ total` lines it prints: exactly the pairs
whose accumulated total is strictly positive, in iteration order. -/
def print_flow_table {n : ℕ} (flow : Mat n) (terminals stores warehouses :
    List (Fin n)) : List ((Fin n × Fin n) × Val) :=
  terminals.flatMap (fun term =>
    stores.filterMap (fun store =>
      let total := tableEntry flow warehouses term store
      if vpos total = true then some ((term, store), total) else none))

/-! ### Basic facts about the value type -/

/-- Integer test: `isNum v` holds when `v` is an exact integer (no infinity, no `nan`). -/
def isNum : Val → Bool
  | num _ => true
  | _ => false

/-- The integer carried by a finite value (junk `0` on the non-finite ones). -/
def toZ : Val → ℤ
  | num z => z
  | _ => 0

/-- The list of consecutive pairs (the edges) of a path given as a node list. -/
def pairs {α : Type} : List α → List (α × α)
  | [] => []
  | [_] => []
  | a :: b :: rest => (a, b) :: pairs (b :: rest)

/-- Parent-pointer paths: `Chain par source v l` states that following the parent pointers from `v`
back to `source` traverses exactly the node list `l` (written from `source`
to `v`), which is how both `while s != source` walks of `edmonds_karp`
traverse the augmenting path found by `bfs`. -/
inductive Chain {n : ℕ} (par : Fin n → Option (Fin n)) (source : Fin n) :
    Fin n → List (Fin n) → Prop
  | base : Chain par source source [source]
  | step {u v : Fin n} {l : List (Fin n)} : v ≠ source → par v = some u →
      Chain par source u l → Chain par source v (l ++ [v])

/-- Number of unvisited nodes; the BFS fuel bookkeeping measure. -/
def unvis {n : ℕ} (vis : Fin n → Bool) : ℕ :=
  (Finset.univ.filter fun x => vis x = false).card

/-- A well-formed capacity matrix in the sense of the specification's data
model: every entry is either the infinite sentinel (virtual-terminal edges)
or a non-negative integer. -/
def ValidCap {n : ℕ} (cap : Mat n) : Prop :=
  ∀ i j, cap i j = Val.inf ∨ (isNum (cap i j) = true ∧ 0 ≤ toZ (cap i j))

instance {n : ℕ} (cap : Mat n) : Decidable (ValidCap cap) := by
  unfold ValidCap
  infer_instance

/-- Integer net flow out of a node (meaningful when the flow is finite). -/
def netZ {n : ℕ} (f : Mat n) (v : Fin n) : ℤ := ∑ j, toZ (f v j)

/-- Capacity of a single entry as an extended integer (`⊤` for the infinite
sentinel; the negative values excluded by `ValidCap` are mapped to junk). -/
def capTop : Val → WithTop ℤ
  | Val.num z => (z : WithTop ℤ)
  | Val.inf => ⊤
  | _ => 0

/-- Total capacity crossing a cut, as an extended integer. -/
def cutCap {n : ℕ} (cap : Mat n) (R : Finset (Fin n)) : WithTop ℤ :=
  ∑ u ∈ R, ∑ v ∈ Rᶜ, capTop (cap u v)

/-- Modelled from the spec (§4.4 Flow Decomposer): for one (entry, exit)
pair, sum `min(flow[entry][intermediate], flow[intermediate][exit])` over the
intermediates whose contribution is strictly positive. -/
def specAttr {n : ℕ} (flow : Mat n) (warehouses : List (Fin n))
    (term store : Fin n) : Val :=
  warehouses.foldl
    (fun acc w =>
      if vpos (vmin (flow term w) (flow w store)) = true then
        vadd acc (vmin (flow term w) (flow w store))
      else acc)
    (num 0)

/-- Modelled from the spec (§4.4): the output maps exactly the pairs with
strictly positive attributed flow to that flow. -/
def specTable {n : ℕ} (flow : Mat n) (terminals stores warehouses :
    List (Fin n)) : List ((Fin n × Fin n) × Val) :=
  terminals.flatMap (fun term =>
    stores.filterMap (fun store =>
      let total := specAttr flow warehouses term store
      if vpos total = true then some ((term, store), total) else none))

/-- Residual reachability: `reachN cap flow s k v` holds when there is a walk of exactly `k`
residual edges from `s` to `v` (an edge `u → v` being traversable when
`capacity[u][v] - flow[u][v] > 0`). -/
def reachN {n : ℕ} (cap flow : Mat n) (s : Fin n) : ℕ → Fin n → Bool
  | 0, v => decide (v = s)
  | k + 1, v => (List.finRange n).any fun u =>
      reachN cap flow s k u && resPos cap flow u v

/-- A small path network `0 →(2) 1 →(3) 2` whose max flow is `2`. -/
def capW : Mat 3 := fun i j =>
  if i = 0 ∧ j = 1 then Val.num 2
  else if i = 1 ∧ j = 2 then Val.num 3
  else Val.num 0

/-- A two-node network whose single edge has infinite capacity. -/
def capB : Mat 2 := fun i j => if i = 0 ∧ j = 1 then Val.inf else Val.num 0

/-- A six-node network (source `0`, sink `3`) whose infinite capacities let
two successive augmentations push an infinite bottleneck through the finite
edge `2 → 1`, driving `flow[2][1]` to `nan`. -/
def capG6 : Mat 6 := fun i j =>
  if i = 0 ∧ j = 1 then Val.inf
  else if i = 1 ∧ j = 2 then Val.inf
  else if i = 2 ∧ j = 3 then Val.inf
  else if i = 0 ∧ j = 4 then Val.inf
  else if i = 4 ∧ j = 2 then Val.inf
  else if i = 2 ∧ j = 1 then Val.num 5
  else if i = 1 ∧ j = 5 then Val.inf
  else if i = 5 ∧ j = 3 then Val.inf
  else Val.num 0

/-- A concrete flow matrix (terminal `0`, warehouses `1`, `2`, store `3`)
for the decomposer witness. -/
def flowW : Mat 4 := fun i j =>
  if i = 0 ∧ j = 1 then Val.num 5
  else if i = 1 ∧ j = 3 then Val.num 3
  else if i = 0 ∧ j = 2 then Val.num 2
  else Val.num 0

theorem vneg_vadd (a b : Val) : vneg (vadd a b) = vadd (vneg a) (vneg b) := by
  cases a <;> cases b <;> simp [vadd, vneg] <;> omega

theorem vneg_vneg (a : Val) : vneg (vneg a) = a := by
  cases a <;> simp [vneg]

theorem isNum_iff {v : Val} : isNum v = true ↔ ∃ z, v = num z := by
  cases v <;> simp [isNum]

theorem vpos_iff {v : Val} :
    vpos v = true ↔ (∃ z : ℤ, 0 < z ∧ v = num z) ∨ v = Val.inf := by
  cases v <;> simp [vpos, vlt] <;> omega

theorem vle_trans {a b c : Val} (h1 : vle a b = true) (h2 : vle b c = true) :
    vle a c = true := by
  cases a <;> cases b <;> cases c <;> simp_all [vle] <;> omega

theorem vle_refl_of_not_nan {a : Val} (h : a ≠ Val.nan) : vle a a = true := by
  cases a <;> simp_all [vle]

theorem vle_of_vlt {a b : Val} (h : vlt a b = true) : vle a b = true := by
  cases a <;> cases b <;> simp_all [vlt, vle] <;> omega

theorem vle_of_not_vlt {a b : Val} (h : vlt b a = false) (ha : a ≠ Val.nan)
    (hb : b ≠ Val.nan) : vle a b = true := by
  cases a <;> cases b <;> simp_all [vlt, vle] <;> omega

theorem vmin_le_left {a b : Val} (ha : a ≠ Val.nan) (hb : b ≠ Val.nan) :
    vle (vmin a b) a = true := by
  unfold vmin
  by_cases h : vlt b a = true
  · simp only [h, if_true]
    exact vle_of_vlt h
  · simp only [Bool.not_eq_true] at h
    simp only [h, Bool.false_eq_true, if_false]
    exact vle_refl_of_not_nan ha

theorem vmin_le_right {a b : Val} (ha : a ≠ Val.nan) (hb : b ≠ Val.nan) :
    vle (vmin a b) b = true := by
  unfold vmin
  by_cases h : vlt b a = true
  · simp only [h, if_true]
    exact vle_refl_of_not_nan hb
  · simp only [Bool.not_eq_true] at h
    simp only [h, Bool.false_eq_true, if_false]
    exact vle_of_not_vlt h ha hb

theorem vmin_eq_or {a b : Val} : vmin a b = a ∨ vmin a b = b := by
  unfold vmin; split <;> simp

theorem vpos_vmin {a b : Val} (ha : vpos a = true) (hb : vpos b = true) :
    vpos (vmin a b) = true := by
  rcases vmin_eq_or (a := a) (b := b) with h | h <;> rw [h] <;> assumption

theorem vpos_not_nan {a : Val} (h : vpos a = true) : a ≠ Val.nan := by
  cases a <;> simp_all [vpos, vlt]

/-! ### Matrix update -/

theorem setF_other {n : ℕ} (m : Mat n) (i j a b : Fin n) (x : Val)
    (h : ¬(a = i ∧ b = j)) : setF m i j x a b = m a b := by simp [setF, h]

/-! ### Consecutive pairs of a list and parent chains -/

theorem pairs_append_last {α : Type} (l : List α) (a v : α)
    (hl : l.getLast? = some a) : pairs (l ++ [v]) = pairs l ++ [(a, v)] := by
  induction l with
  | nil => simp at hl
  | cons x rest ih =>
    cases rest with
    | nil => simp_all [pairs]
    | cons y rest2 =>
      have h2 : (y :: rest2 : List α).getLast? = some a := by
        rw [← hl]; simp [List.getLast?_cons_cons]
      have step : pairs ((x :: y :: rest2) ++ [v])
          = (x, y) :: pairs ((y :: rest2) ++ [v]) := rfl
      rw [step, ih h2]
      rfl

theorem pairs_mem_left {α : Type} {l : List α} {a b : α}
    (h : (a, b) ∈ pairs l) : a ∈ l := by
  induction l with
  | nil => simp [pairs] at h
  | cons x rest ih =>
    cases rest with
    | nil => simp [pairs] at h
    | cons y rest2 =>
      simp only [pairs, List.mem_cons, Prod.mk.injEq] at h
      rcases h with ⟨h1, _⟩ | h2
      · simp [h1]
      · simp [ih h2]

theorem pairs_mem_right {α : Type} {l : List α} {a b : α}
    (h : (a, b) ∈ pairs l) : b ∈ l := by
  induction l with
  | nil => simp [pairs] at h
  | cons x rest ih =>
    cases rest with
    | nil => simp [pairs] at h
    | cons y rest2 =>
      simp only [pairs, List.mem_cons, Prod.mk.injEq] at h
      rcases h with ⟨_, h1⟩ | h2
      · simp [h1]
      · have := ih h2
        simp [this]

theorem pairs_mem_right_tail {α : Type} {x : α} {rest : List α} {a b : α}
    (h : (a, b) ∈ pairs (x :: rest)) : b ∈ rest := by
  induction rest generalizing x with
  | nil => simp [pairs] at h
  | cons y rest2 ih =>
    simp only [pairs, List.mem_cons, Prod.mk.injEq] at h
    rcases h with ⟨_, h1⟩ | h2
    · simp [h1]
    · have := ih h2
      simp [this]

theorem pairs_head_not_right {α : Type} {x : α} {rest : List α} {b : α}
    (hn : (x :: rest).Nodup) : (b, x) ∉ pairs (x :: rest) := by
  intro h
  have := pairs_mem_right_tail h
  simp [List.nodup_cons] at hn
  exact hn.1 this

theorem pairs_uniq_next {α : Type} {l : List α} {a b c : α} (hn : l.Nodup)
    (h1 : (a, b) ∈ pairs l) (h2 : (a, c) ∈ pairs l) : b = c := by
  induction l with
  | nil => simp [pairs] at h1
  | cons x rest ih =>
    cases rest with
    | nil => simp [pairs] at h1
    | cons y rest2 =>
      have hx : x ∉ (y :: rest2 : List α) := (List.nodup_cons.mp hn).1
      have hr : (y :: rest2 : List α).Nodup := (List.nodup_cons.mp hn).2
      simp only [pairs, List.mem_cons, Prod.mk.injEq] at h1 h2
      rcases h1 with ⟨ha1, hb1⟩ | h1
      · rcases h2 with ⟨_, hc1⟩ | h2
        · rw [hb1, hc1]
        · exfalso
          have := pairs_mem_left h2
          rw [ha1] at this
          exact hx this
      · rcases h2 with ⟨ha1, _⟩ | h2
        · exfalso
          have := pairs_mem_left h1
          rw [ha1] at this
          exact hx this
        · exact ih hr h1 h2

theorem pairs_uniq_prev {α : Type} {l : List α} {a b c : α} (hn : l.Nodup)
    (h1 : (a, c) ∈ pairs l) (h2 : (b, c) ∈ pairs l) : a = b := by
  induction l with
  | nil => simp [pairs] at h1
  | cons x rest ih =>
    cases rest with
    | nil => simp [pairs] at h1
    | cons y rest2 =>
      have hx : x ∉ (y :: rest2 : List α) := (List.nodup_cons.mp hn).1
      have hr : (y :: rest2 : List α).Nodup := (List.nodup_cons.mp hn).2
      have hy : y ∉ rest2 := (List.nodup_cons.mp hr).1
      simp only [pairs, List.mem_cons, Prod.mk.injEq] at h1 h2
      rcases h1 with ⟨ha1, hc1⟩ | h1
      · rcases h2 with ⟨hb1, _⟩ | h2
        · rw [ha1, hb1]
        · exfalso
          have := pairs_mem_right_tail h2
          rw [hc1] at this
          exact hy this
      · rcases h2 with ⟨_, hc1⟩ | h2
        · exfalso
          have := pairs_mem_right_tail h1
          rw [hc1] at this
          exact hy this
        · exact ih hr h1 h2

theorem pairs_no_reverse {α : Type} {l : List α} {a b : α} (hn : l.Nodup)
    (h1 : (a, b) ∈ pairs l) : (b, a) ∉ pairs l := by
  induction l with
  | nil => simp [pairs] at h1
  | cons x rest ih =>
    cases rest with
    | nil => simp [pairs] at h1
    | cons y rest2 =>
      intro h2
      have hx : x ∉ (y :: rest2 : List α) := (List.nodup_cons.mp hn).1
      have hr : (y :: rest2 : List α).Nodup := (List.nodup_cons.mp hn).2
      simp only [pairs, List.mem_cons, Prod.mk.injEq] at h1 h2
      rcases h1 with ⟨ha1, hb1⟩ | h1
      · rcases h2 with ⟨hb2, ha2⟩ | h2
        · have hxy : x = y := hb2.symm.trans hb1
          apply hx
          rw [hxy]
          exact List.mem_cons_self _ _
        · have := pairs_mem_right_tail h2
          rw [ha1] at this
          exact hx (List.mem_cons_of_mem _ this)
      · rcases h2 with ⟨hb2, ha2⟩ | h2
        · have := pairs_mem_right_tail h1
          rw [hb2] at this
          exact hx (List.mem_cons_of_mem _ this)
        · exact ih hr h1 h2

theorem pairs_last_not_left {α : Type} {l : List α} {a b : α} (hn : l.Nodup)
    (hl : l.getLast? = some a) : (a, b) ∉ pairs l := by
  induction l with
  | nil => simp [pairs]
  | cons x rest ih =>
    cases rest with
    | nil => simp [pairs]
    | cons y rest2 =>
      intro h
      have hx : x ∉ (y :: rest2 : List α) := (List.nodup_cons.mp hn).1
      have hr : (y :: rest2 : List α).Nodup := (List.nodup_cons.mp hn).2
      have hl2 : (y :: rest2 : List α).getLast? = some a := by
        rw [← hl]; simp [List.getLast?_cons_cons]
      simp only [pairs, List.mem_cons, Prod.mk.injEq] at h
      rcases h with ⟨ha1, _⟩ | h
      · apply hx
        rw [← ha1]
        rcases List.mem_getLast?_eq_getLast (l := y :: rest2) (x := a)
          (Option.mem_def.mpr hl2) with ⟨hne, heq⟩
        rw [heq]
        exact List.getLast_mem hne
      · exact ih hr hl2 h

theorem Chain.getLast_eq {n : ℕ} {par : Fin n → Option (Fin n)}
    {source v : Fin n} {l : List (Fin n)} (h : Chain par source v l) :
    l.getLast? = some v := by
  induction h with
  | base => rfl
  | step _ _ _ _ => simp

theorem Chain.ne_nil {n : ℕ} {par : Fin n → Option (Fin n)}
    {source v : Fin n} {l : List (Fin n)} (h : Chain par source v l) :
    l ≠ [] := by
  induction h with
  | base => simp
  | step _ _ _ _ => simp

theorem Chain.head_eq {n : ℕ} {par : Fin n → Option (Fin n)}
    {source v : Fin n} {l : List (Fin n)} (h : Chain par source v l) :
    l.head? = some source := by
  induction h with
  | base => rfl
  | step _ _ hc ih =>
    rename_i l2
    rw [← ih]
    exact List.head?_append_of_ne_nil _ hc.ne_nil

theorem Chain.mem_self {n : ℕ} {par : Fin n → Option (Fin n)}
    {source v : Fin n} {l : List (Fin n)} (h : Chain par source v l) :
    v ∈ l := by
  rcases List.mem_getLast?_eq_getLast (Option.mem_def.mpr h.getLast_eq)
    with ⟨hne, heq⟩
  rw [heq]
  exact List.getLast_mem hne

theorem Chain.source_mem {n : ℕ} {par : Fin n → Option (Fin n)}
    {source v : Fin n} {l : List (Fin n)} (h : Chain par source v l) :
    source ∈ l := by
  have := h.head_eq
  cases l with
  | nil => simp at this
  | cons x rest => simp_all

theorem Chain.length_le {n : ℕ} {par : Fin n → Option (Fin n)}
    {source v : Fin n} {l : List (Fin n)} (h : Chain par source v l)
    (hn : l.Nodup) : l.length ≤ n := by
  have := List.Nodup.length_le_card hn
  simpa using this

/-- A chain is insensitive to parent entries outside its own nodes. -/
theorem Chain.congr {n : ℕ} {par par2 : Fin n → Option (Fin n)}
    {source v : Fin n} {l : List (Fin n)} (h : Chain par source v l)
    (hagree : ∀ x ∈ l, par2 x = par x) : Chain par2 source v l := by
  induction h with
  | base => exact Chain.base
  | step hne hp hc ih =>
    refine Chain.step hne ?_ (ih fun x hx => hagree x (by simp [hx]))
    rw [hagree _ (by simp)]
    exact hp

/-- Behaviour of the bottleneck walk of `edmonds_karp` along a parent chain:
the computed `path_flow` is a lower bound of every residual on the path, it
is the accumulator or one of those residuals, and it is strictly positive
when they all are. -/
theorem walkMin_spec {n : ℕ} {cap flow : Mat n} {par : Fin n → Option (Fin n)}
    {source v : Fin n} {l : List (Fin n)} (h : Chain par source v l)
    (hres : ∀ pr ∈ pairs l, resPos cap flow pr.1 pr.2 = true) :
    ∀ fuel, l.length ≤ fuel + 1 → ∀ acc, vpos acc = true →
      (vle (walkMin cap flow par source fuel v acc) acc = true ∧
       (∀ pr ∈ pairs l,
         vle (walkMin cap flow par source fuel v acc)
           (residual cap flow pr.1 pr.2) = true) ∧
       (walkMin cap flow par source fuel v acc = acc ∨
         ∃ pr ∈ pairs l,
           walkMin cap flow par source fuel v acc
             = residual cap flow pr.1 pr.2) ∧
       vpos (walkMin cap flow par source fuel v acc) = true) := by
  induction h with
  | base =>
    intro fuel _ acc hacc
    have hwm : walkMin cap flow par source fuel source acc = acc := by
      cases fuel with
      | zero => rfl
      | succ k => simp [walkMin]
    rw [hwm]
    refine ⟨vle_refl_of_not_nan (vpos_not_nan hacc), ?_, Or.inl rfl, hacc⟩
    intro pr hpr
    simp [pairs] at hpr
  | step hne hp hc ih =>
    rename_i u v2 l2
    intro fuel hfuel acc hacc
    have hlen : l2.length + 1 ≤ fuel + 1 := by simpa using hfuel
    obtain ⟨k, rfl⟩ : ∃ k, fuel = k + 1 := by
      cases fuel with
      | zero =>
        exfalso
        have := hc.ne_nil
        have := List.length_pos.mpr this
        omega
      | succ k => exact ⟨k, rfl⟩
    have hpairs : pairs (l2 ++ [v2]) = pairs l2 ++ [(u, v2)] :=
      pairs_append_last _ _ _ hc.getLast_eq
    have hresu : resPos cap flow u v2 = true := by
      have := hres (u, v2) (by rw [hpairs]; simp)
      exact this
    have hwm : walkMin cap flow par source (k + 1) v2 acc
        = walkMin cap flow par source k u
            (vmin acc (residual cap flow u v2)) := by
      simp [walkMin, hne, hp]
    have haccnan : acc ≠ Val.nan := vpos_not_nan hacc
    have hrnan : residual cap flow u v2 ≠ Val.nan := vpos_not_nan hresu
    have hacc2 : vpos (vmin acc (residual cap flow u v2)) = true :=
      vpos_vmin hacc hresu
    have hres2 : ∀ pr ∈ pairs l2, resPos cap flow pr.1 pr.2 = true := by
      intro pr hpr
      apply hres
      rw [hpairs]
      simp [hpr]
    obtain ⟨ih1, ih2, ih3, ih4⟩ :=
      ih hres2 k (by omega) (vmin acc (residual cap flow u v2)) hacc2
    rw [hwm]
    refine ⟨?_, ?_, ?_, ih4⟩
    · exact vle_trans ih1 (vmin_le_left haccnan hrnan)
    · intro pr hpr
      rw [hpairs] at hpr
      rcases List.mem_append.mp hpr with hpr | hpr
      · exact ih2 pr hpr
      · simp at hpr
        rw [hpr]
        exact vle_trans ih1 (vmin_le_right haccnan hrnan)
    · rcases ih3 with h3 | ⟨pr, hpr, h3⟩
      · rcases vmin_eq_or (a := acc) (b := residual cap flow u v2) with h4 | h4
        · rw [h3, h4]
          exact Or.inl rfl
        · refine Or.inr ⟨(u, v2), ?_, by rw [h3, h4]⟩
          rw [hpairs]
          simp
      · refine Or.inr ⟨pr, ?_, h3⟩
        rw [hpairs]
        simp [hpr]

/-- Behaviour of the augmentation walk of `edmonds_karp` along a duplicate-free
parent chain: each path edge `(a, b)` gains `path_flow` on `flow[a][b]` and
loses it on `flow[b][a]`; every other entry is untouched. -/
theorem walkAug_spec {n : ℕ} {par : Fin n → Option (Fin n)}
    {source v : Fin n} {l : List (Fin n)} (h : Chain par source v l)
    (hnd : l.Nodup) (pf : Val) :
    ∀ fuel, l.length ≤ fuel + 1 → ∀ f : Mat n,
      walkAug par source pf fuel v f = fun a b =>
        if (a, b) ∈ pairs l then vadd (f a b) pf
        else if (b, a) ∈ pairs l then vsub (f a b) pf
        else f a b := by
  induction h with
  | base =>
    intro fuel _ f
    have hwa : walkAug par source pf fuel source f = f := by
      cases fuel with
      | zero => rfl
      | succ k => simp [walkAug]
    rw [hwa]
    funext a b
    simp [pairs]
  | step hne hp hc ih =>
    rename_i u v2 l2
    intro fuel hfuel f
    have hndl : l2.Nodup := (List.nodup_append.mp hnd).1
    have hvnot : v2 ∉ l2 := by
      have hd := (List.nodup_append.mp hnd).2.2
      intro hmem
      exact (hd hmem) (by simp)
    have humem : u ∈ l2 := hc.mem_self
    have huv : u ≠ v2 := fun he => hvnot (he ▸ humem)
    obtain ⟨k, rfl⟩ : ∃ k, fuel = k + 1 := by
      cases fuel with
      | zero =>
        exfalso
        have hlp := List.length_pos.mpr hc.ne_nil
        rw [List.length_append, List.length_singleton] at hfuel
        omega
      | succ k => exact ⟨k, rfl⟩
    have hpairs : pairs (l2 ++ [v2]) = pairs l2 ++ [(u, v2)] :=
      pairs_append_last _ _ _ hc.getLast_eq
    have hlen : l2.length ≤ k + 1 := by
      rw [List.length_append, List.length_singleton] at hfuel
      omega
    have hwa : walkAug par source pf (k + 1) v2 f
        = walkAug par source pf k u
            (setF (setF f u v2 (vadd (f u v2) pf)) v2 u
              (vsub (setF f u v2 (vadd (f u v2) pf) v2 u) pf)) := by
      simp [walkAug, hne, hp]
    rw [hwa, ih hndl k hlen]
    funext a b
    have hread : setF f u v2 (vadd (f u v2) pf) v2 u = f v2 u :=
      setF_other _ _ _ _ _ _ (by simp [huv, Ne.symm huv])
    rw [hread]
    set f2 := setF (setF f u v2 (vadd (f u v2) pf)) v2 u (vsub (f v2 u) pf)
      with hf2
    have hf2eval : ∀ a b : Fin n, f2 a b =
        if a = u ∧ b = v2 then vadd (f u v2) pf
        else if a = v2 ∧ b = u then vsub (f v2 u) pf
        else f a b := by
      intro a b
      rw [hf2]
      by_cases h1 : a = v2 ∧ b = u
      · rw [setF, if_pos h1, h1.1, h1.2]
        simp [huv, Ne.symm huv]
      · rw [setF, if_neg h1]
        by_cases h2 : a = u ∧ b = v2
        · rw [setF, if_pos h2, h2.1, h2.2]
          simp [huv, Ne.symm huv]
        · rw [setF, if_neg h2, if_neg h2, if_neg h1]
    -- now a pure case analysis over membership of (a, b) in the extended path
    by_cases hab : (a, b) ∈ pairs l2
    · have hbv : b ≠ v2 := fun he => hvnot (he ▸ pairs_mem_right hab)
      have hav : a ≠ v2 := fun he => hvnot (he ▸ pairs_mem_left hab)
      have h1 : ¬(a = u ∧ b = v2) := fun hcon => hbv hcon.2
      have h2 : ¬(a = v2 ∧ b = u) := fun hcon => hav hcon.1
      have habL : (a, b) ∈ pairs (l2 ++ [v2]) := by rw [hpairs]; simp [hab]
      simp only [hab, if_true, habL, if_true]
      rw [hf2eval, if_neg h1, if_neg h2]
    · by_cases hba : (b, a) ∈ pairs l2
      · have hbv : b ≠ v2 := fun he => hvnot (he ▸ pairs_mem_left hba)
        have hav : a ≠ v2 := fun he => hvnot (he ▸ pairs_mem_right hba)
        have h1 : ¬(a = u ∧ b = v2) := fun hcon => hbv hcon.2
        have h2 : ¬(a = v2 ∧ b = u) := fun hcon => hav hcon.1
        have habL : (a, b) ∉ pairs (l2 ++ [v2]) := by
          rw [hpairs]
          simp only [List.mem_append, List.mem_singleton]
          push_neg
          refine ⟨hab, ?_⟩
          intro hcon
          exact hbv (by rw [Prod.mk.injEq] at hcon; exact hcon.2)
        have hbaL : (b, a) ∈ pairs (l2 ++ [v2]) := by rw [hpairs]; simp [hba]
        simp only [hab, if_false, hba, if_true, habL, hbaL]
        rw [hf2eval, if_neg h1, if_neg h2]
      · by_cases h1 : a = u ∧ b = v2
        · have habL : (a, b) ∈ pairs (l2 ++ [v2]) := by
            rw [hpairs, h1.1, h1.2]
            simp
          simp only [hab, if_false, hba, if_false, habL, if_true]
          rw [hf2eval, if_pos h1, h1.1, h1.2]
        · by_cases h2 : a = v2 ∧ b = u
          · have habL : (a, b) ∉ pairs (l2 ++ [v2]) := by
              rw [hpairs]
              simp only [List.mem_append, List.mem_singleton]
              push_neg
              refine ⟨hab, ?_⟩
              intro hcon
              rw [Prod.mk.injEq] at hcon
              exact huv (by rw [← hcon.1, h2.1])
            have hbaL : (b, a) ∈ pairs (l2 ++ [v2]) := by
              rw [hpairs, h2.1, h2.2]
              simp
            simp only [hab, if_false, hba, if_false, habL, hbaL, if_true]
            rw [hf2eval, if_neg (fun hcon => huv (by rw [← hcon.1, h2.1])),
              if_pos h2, h2.1, h2.2]
          · have habL : (a, b) ∉ pairs (l2 ++ [v2]) := by
              rw [hpairs]
              simp only [List.mem_append, List.mem_singleton]
              push_neg
              refine ⟨hab, ?_⟩
              intro hcon
              rw [Prod.mk.injEq] at hcon
              exact h1 ⟨hcon.1, hcon.2⟩
            have hbaL : (b, a) ∉ pairs (l2 ++ [v2]) := by
              rw [hpairs]
              simp only [List.mem_append, List.mem_singleton]
              push_neg
              refine ⟨hba, ?_⟩
              intro hcon
              rw [Prod.mk.injEq] at hcon
              exact h2 ⟨hcon.2, hcon.1⟩
            simp only [hab, if_false, hba, if_false, habL, hbaL]
            rw [hf2eval, if_neg h1, if_neg h2]

theorem unvis_update {n : ℕ} (vis : Fin n → Bool) (v : Fin n)
    (h : vis v = false) :
    unvis (Function.update vis v true) + 1 = unvis vis := by
  have hset : (Finset.univ.filter fun x => Function.update vis v true x = false)
      = (Finset.univ.filter fun x => vis x = false).erase v := by
    ext x
    by_cases hx : x = v <;>
      simp [Function.update_apply, hx, h]
  rw [unvis, hset, Finset.card_erase_of_mem (by simp [h])]
  have hpos : 0 < (Finset.univ.filter fun x => vis x = false).card :=
    Finset.card_pos.mpr ⟨v, by simp [h]⟩
  have : unvis vis = (Finset.univ.filter fun x => vis x = false).card := rfl
  omega

/-- Full behavioural specification of one neighbour scan of `bfs` (the inner
`for` loop): visited flags only grow, parents of previously visited nodes are
untouched, newly visited nodes are neighbours of `u` with positive residual
and parent `u`, the queue only gains freshly visited nodes (when the sink was
not found), the sink's flag is unchanged when the scan reports `false`, and a
`true` report means the sink was freshly discovered from `u`. -/
theorem bfsInner_spec {n : ℕ} (cap flow : Mat n) (t u : Fin n) :
    ∀ (vs : List (Fin n)) (vis : Fin n → Bool) (par : Fin n → Option (Fin n))
      (q : List (Fin n)) (vis2 : Fin n → Bool)
      (par2 : Fin n → Option (Fin n)) (q2 : List (Fin n)) (fd : Bool),
      bfsInner cap flow t u vs vis par q = (vis2, par2, q2, fd) →
      ((∀ x, vis x = true → vis2 x = true) ∧
       (∀ x, vis x = true → par2 x = par x) ∧
       (∀ x, vis2 x = true → vis x = true ∨
         (x ∈ vs ∧ vis x = false ∧ resPos cap flow u x = true ∧
           par2 x = some u)) ∧
       (fd = false →
         (∀ x ∈ q, x ∈ q2) ∧
         (∀ x, vis2 x = true → vis x = true ∨ x ∈ q2) ∧
         q2.length + unvis vis2 ≤ q.length + unvis vis ∧
         (∀ x ∈ q2, x ∈ q ∨ (vis x = false ∧ vis2 x = true))) ∧
       (fd = false → vis2 t = vis t) ∧
       (fd = false → ∀ x ∈ vs, resPos cap flow u x = true → vis2 x = true) ∧
       (fd = true → par2 t = some u ∧ vis t = false ∧
         resPos cap flow u t = true)) := by
  intro vs
  induction vs with
  | nil =>
    intro vis par q vis2 par2 q2 fd heq
    rw [bfsInner] at heq
    injection heq with h1 h2
    injection h2 with h2 h3
    injection h3 with h3 h4
    subst h1; subst h2; subst h3; subst h4
    refine ⟨fun x h => h, fun x _ => rfl, fun x h => Or.inl h, ?_, ?_, ?_, ?_⟩
    · intro _
      exact ⟨fun x h => h, fun x h => Or.inl h, le_refl _, fun x h => Or.inl h⟩
    · intro _; rfl
    · intro _ x hx; simp at hx
    · intro h; cases h
  | cons v vs ih =>
    intro vis par q vis2 par2 q2 fd heq
    rw [bfsInner] at heq
    by_cases hcond : vis v = false ∧ resPos cap flow u v = true
    · rw [if_pos hcond] at heq
      by_cases hvt : v = t
      · rw [if_pos hvt] at heq
        injection heq with h1 h2
        injection h2 with h2 h3
        injection h3 with h3 h4
        subst h1; subst h2; subst h3; subst h4
        refine ⟨?_, ?_, ?_, ?_, ?_, ?_, ?_⟩
        · intro x hx
          rw [Function.update_apply]
          split <;> simp [hx]
        · intro x hx
          rw [Function.update_apply]
          have : x ≠ v := fun he => by rw [he, hcond.1] at hx; cases hx
          simp [this]
        · intro x hx
          rw [Function.update_apply] at hx
          by_cases hxv : x = v
          · subst hxv
            refine Or.inr ⟨by simp, hcond.1, hcond.2, ?_⟩
            rw [Function.update_apply]
            simp
          · rw [if_neg hxv] at hx
            exact Or.inl hx
        · intro h; cases h
        · intro h; cases h
        · intro h; cases h
        · intro _
          subst hvt
          refine ⟨by rw [Function.update_apply]; simp, hcond.1, hcond.2⟩
      · rw [if_neg hvt] at heq
        have hspec := ih (Function.update vis v true)
          (Function.update par v (some u)) (q ++ [v]) vis2 par2 q2 fd heq
        obtain ⟨s1, s2, s3, s4, s5, s6, s7⟩ := hspec
        have hmono : ∀ x, vis x = true → Function.update vis v true x = true :=
          by
          intro x hx
          rw [Function.update_apply]
          split <;> simp [hx]
        have hxnev : ∀ x, vis x = true → x ≠ v := by
          intro x hx he
          rw [he, hcond.1] at hx
          cases hx
        refine ⟨?_, ?_, ?_, ?_, ?_, ?_, ?_⟩
        · intro x hx
          exact s1 x (hmono x hx)
        · intro x hx
          rw [s2 x (hmono x hx), Function.update_apply, if_neg (hxnev x hx)]
        · intro x hx
          rcases s3 x hx with hx2 | ⟨hxin, hxf, hxres, hxpar⟩
          · rw [Function.update_apply] at hx2
            by_cases hxv : x = v
            · subst hxv
              refine Or.inr ⟨by simp, hcond.1, hcond.2, ?_⟩
              rw [s2 x (by rw [Function.update_apply]; simp),
                Function.update_apply]
              simp
            · rw [if_neg hxv] at hx2
              exact Or.inl hx2
          · rw [Function.update_apply] at hxf
            by_cases hxv : x = v
            · rw [if_pos hxv] at hxf; cases hxf
            · rw [if_neg hxv] at hxf
              exact Or.inr ⟨by simp [hxin], hxf, hxres, hxpar⟩
        · intro hfd
          obtain ⟨t1, t2, t3, t4⟩ := s4 hfd
          have hvq2 : v ∈ q2 := t1 v (by simp)
          refine ⟨?_, ?_, ?_, ?_⟩
          · intro x hx
            exact t1 x (by simp [hx])
          · intro x hx
            rcases t2 x hx with hx2 | hx2
            · rw [Function.update_apply] at hx2
              by_cases hxv : x = v
              · subst hxv; exact Or.inr hvq2
              · rw [if_neg hxv] at hx2; exact Or.inl hx2
            · exact Or.inr hx2
          · have hcnt := unvis_update vis v hcond.1
            have : (q ++ [v]).length = q.length + 1 := by simp
            omega
          · intro x hx
            rcases t4 x hx with hx2 | hx2
            · rcases List.mem_append.mp hx2 with hx3 | hx3
              · exact Or.inl hx3
              · simp at hx3
                refine Or.inr ?_
                rw [hx3]
                exact ⟨hcond.1,
                  s1 v (by rw [Function.update_apply]; simp)⟩
            · refine Or.inr ⟨?_, hx2.2⟩
              have hx21 := hx2.1
              rw [Function.update_apply] at hx21
              by_cases hxv : x = v
              · rw [if_pos hxv] at hx21; cases hx21
              · rw [if_neg hxv] at hx21; exact hx21
        · intro hfd
          rw [s5 hfd, Function.update_apply, if_neg (Ne.symm hvt)]
        · intro hfd x hx hres
          rcases List.mem_cons.mp hx with hx2 | hx2
          · subst hx2
            exact s1 x (by rw [Function.update_apply]; simp)
          · exact s6 hfd x hx2 hres
        · intro hfd
          obtain ⟨t1, t2, t3⟩ := s7 hfd
          refine ⟨t1, ?_, t3⟩
          rw [Function.update_apply] at t2
          by_cases hvt2 : t = v
          · exact absurd hvt2.symm hvt
          · rw [if_neg hvt2] at t2
            exact t2
    · rw [if_neg hcond] at heq
      have hspec := ih vis par q vis2 par2 q2 fd heq
      obtain ⟨s1, s2, s3, s4, s5, s6, s7⟩ := hspec
      refine ⟨s1, s2, ?_, s4, s5, ?_, s7⟩
      · intro x hx
        rcases s3 x hx with hx2 | ⟨hxin, hxf, hxres, hxpar⟩
        · exact Or.inl hx2
        · exact Or.inr ⟨by simp [hxin], hxf, hxres, hxpar⟩
      · intro hfd x hx hres
        rcases List.mem_cons.mp hx with hx2 | hx2
        · subst hx2
          have hv : vis x = true := by
            by_cases h : vis x = true
            · exact h
            · exfalso
              exact hcond ⟨by simpa using h, hres⟩
          exact s1 x hv
        · exact s6 hfd x hx2 hres

/-- The closure extraction used when the BFS queue is exhausted: the visited
set separates source from sink and is closed under residual edges. -/
theorem bfs_closed_set {n : ℕ} (cap flow : Mat n) (s t : Fin n)
    (vis : Fin n → Bool) (hs : vis s = true) (ht : vis t = false)
    (hclosed : ∀ x, vis x = true →
      ∀ y, resPos cap flow x y = true → vis y = true) :
    ∃ V : Finset (Fin n), s ∈ V ∧ t ∉ V ∧
      ∀ x ∈ V, ∀ y, resPos cap flow x y = true → y ∈ V := by
  refine ⟨Finset.univ.filter fun x => vis x = true, by simp [hs], by simp [ht],
    ?_⟩
  intro x hx y hy
  simp only [Finset.mem_filter, Finset.mem_univ, true_and] at hx ⊢
  exact hclosed x hx y hy

/-- Master structural specification of the `while queue:` loop of `bfs`.
Under the queue/visited invariants, a `True` answer produces a parent chain
that is a duplicate-free residual path from source to sink, and a `False`
answer produces a residual-closed vertex set separating source from sink. -/
theorem bfsLoop_spec {n : ℕ} (cap flow : Mat n) (s t : Fin n) (hst : s ≠ t) :
    ∀ (fuel : ℕ) (q : List (Fin n)) (vis : Fin n → Bool)
      (par : Fin n → Option (Fin n)),
      q.length + unvis vis ≤ fuel →
      vis s = true →
      (∀ x ∈ q, vis x = true) →
      vis t = false →
      (∀ x, vis x = true → ∃ l, Chain par s x l ∧ l.Nodup ∧
        (∀ y ∈ l, vis y = true) ∧
        (∀ pr ∈ pairs l, resPos cap flow pr.1 pr.2 = true)) →
      (∀ x, vis x = true → x ∈ q ∨
        (∀ y, resPos cap flow x y = true → vis y = true)) →
      (((bfsLoop cap flow t fuel q vis par).1 = true →
          ∃ l, Chain (bfsLoop cap flow t fuel q vis par).2 s t l ∧ l.Nodup ∧
            (∀ pr ∈ pairs l, resPos cap flow pr.1 pr.2 = true)) ∧
       ((bfsLoop cap flow t fuel q vis par).1 = false →
          ∃ V : Finset (Fin n), s ∈ V ∧ t ∉ V ∧
            ∀ x ∈ V, ∀ y, resPos cap flow x y = true → y ∈ V)) := by
  intro fuel
  induction fuel with
  | zero =>
    intro q vis par hfuel hs hq ht hchain hclosed
    cases q with
    | nil =>
      constructor
      · intro h
        rw [bfsLoop] at h
        cases h
      · intro _
        refine bfs_closed_set cap flow s t vis hs ht ?_
        intro x hx y hy
        rcases hclosed x hx with hmem | hcl
        · simp at hmem
        · exact hcl y hy
    | cons u q2 =>
      exfalso
      rw [List.length_cons] at hfuel
      omega
  | succ k ihf =>
    intro q vis par hfuel hs hq ht hchain hclosed
    cases q with
    | nil =>
      constructor
      · intro h
        rw [bfsLoop] at h
        cases h
      · intro _
        refine bfs_closed_set cap flow s t vis hs ht ?_
        intro x hx y hy
        rcases hclosed x hx with hmem | hcl
        · simp at hmem
        · exact hcl y hy
    | cons u q1 =>
      rcases hInner : bfsInner cap flow t u (List.finRange n) vis par q1 with
        ⟨vis2, par2, q2, fd⟩
      obtain ⟨s1, s2, s3, s4, s5, s6, s7⟩ :=
        bfsInner_spec cap flow t u (List.finRange n) vis par q1 vis2 par2 q2
          fd hInner
      have hu : vis u = true := hq u (by simp)
      cases fd with
      | true =>
        obtain ⟨t1, t2, t3⟩ := s7 rfl
        have hres : bfsLoop cap flow t (k + 1) (u :: q1) vis par
            = (true, par2) := by
          rw [bfsLoop, hInner]
        rw [hres]
        constructor
        · intro _
          obtain ⟨l, hcl, hnd, hlv, hlres⟩ := hchain u hu
          have hagree : ∀ x ∈ l, par2 x = par x := fun x hx => s2 x (hlv x hx)
          have hcl2 : Chain par2 s u l := hcl.congr hagree
          have htnotl : t ∉ l := fun hmem => by rw [hlv t hmem] at ht; cases ht
          refine ⟨l ++ [t], Chain.step (Ne.symm hst) t1 hcl2, ?_, ?_⟩
          · rw [List.nodup_append]
            exact ⟨hnd, by simp, fun x hx hx2 => by
              simp at hx2
              rw [hx2] at hx
              exact htnotl hx⟩
          · intro pr hpr
            rw [pairs_append_last l u t hcl.getLast_eq] at hpr
            rcases List.mem_append.mp hpr with hpr | hpr
            · exact hlres pr hpr
            · simp at hpr
              rw [hpr]
              exact t3
        · intro h
          cases h
      | false =>
        obtain ⟨t1, t2, t3, t4⟩ := s4 rfl
        have hres : bfsLoop cap flow t (k + 1) (u :: q1) vis par
            = bfsLoop cap flow t k q2 vis2 par2 := by
          rw [bfsLoop, hInner]
        rw [hres]
        refine ihf q2 vis2 par2 ?_ (s1 s hs) ?_ ?_ ?_ ?_
        · rw [List.length_cons] at hfuel
          omega
        · intro x hx
          rcases t4 x hx with hx2 | hx2
          · exact s1 x (hq x (by simp [hx2]))
          · exact hx2.2
        · rw [s5 rfl]
          exact ht
        · intro x hx
          rcases s3 x hx with hx2 | ⟨hxin, hxf, hxres, hxpar⟩
          · obtain ⟨l, hcl, hnd, hlv, hlres⟩ := hchain x hx2
            have hagree : ∀ y ∈ l, par2 y = par y := fun y hy => s2 y (hlv y hy)
            exact ⟨l, hcl.congr hagree, hnd, fun y hy => s1 y (hlv y hy), hlres⟩
          · obtain ⟨l, hcl, hnd, hlv, hlres⟩ := hchain u hu
            have hagree : ∀ y ∈ l, par2 y = par y := fun y hy => s2 y (hlv y hy)
            have hcl2 : Chain par2 s u l := hcl.congr hagree
            have hxs : x ≠ s := fun he => by rw [he, hs] at hxf; cases hxf
            have hxnotl : x ∉ l := fun hmem => by
              rw [hlv x hmem] at hxf; cases hxf
            refine ⟨l ++ [x], Chain.step hxs hxpar hcl2, ?_, ?_, ?_⟩
            · rw [List.nodup_append]
              exact ⟨hnd, by simp, fun y hy hy2 => by
                simp at hy2
                rw [hy2] at hy
                exact hxnotl hy⟩
            · intro y hy
              rcases List.mem_append.mp hy with hy | hy
              · exact s1 y (hlv y hy)
              · simp at hy
                rw [hy]
                exact hx
            · intro pr hpr
              rw [pairs_append_last l u x hcl.getLast_eq] at hpr
              rcases List.mem_append.mp hpr with hpr | hpr
              · exact hlres pr hpr
              · simp at hpr
                rw [hpr]
                exact hxres
        · intro x hx
          rcases s3 x hx with hx2 | ⟨hxin, hxf, hxres, hxpar⟩
          · rcases hclosed x hx2 with hmem | hcl
            · rcases List.mem_cons.mp hmem with hmem | hmem
              · refine Or.inr ?_
                rw [hmem]
                intro y hy
                exact s6 rfl y (List.mem_finRange y) hy
              · exact Or.inl (t1 x hmem)
            · exact Or.inr fun y hy => s1 y (hcl y hy)
          · rcases t2 x hx with hx3 | hx3
            · rw [hx3] at hxf
              cases hxf
            · exact Or.inl hx3

theorem unvis_init {n : ℕ} (s : Fin n) :
    unvis (Function.update (fun _ : Fin n => false) s true) + 1 = n := by
  have h := unvis_update (fun _ : Fin n => false) s rfl
  have h0 : unvis (fun _ : Fin n => false) = n := by
    simp [unvis]
  omega

/-- Top-level specification of `bfs` for distinct endpoints: on success the
(returned) parent array traces a duplicate-free residual path from source to
sink; on failure a residual-closed separating vertex set exists. -/
theorem bfs_spec {n : ℕ} (cap flow : Mat n) (s t : Fin n) (hst : s ≠ t)
    (par : Fin n → Option (Fin n)) :
    ((bfs cap flow s t par).1 = true →
       ∃ l, Chain (bfs cap flow s t par).2 s t l ∧ l.Nodup ∧
         (∀ pr ∈ pairs l, resPos cap flow pr.1 pr.2 = true)) ∧
    ((bfs cap flow s t par).1 = false →
       ∃ V : Finset (Fin n), s ∈ V ∧ t ∉ V ∧
         ∀ x ∈ V, ∀ y, resPos cap flow x y = true → y ∈ V) := by
  have hvis : ∀ x, Function.update (fun _ : Fin n => false) s true x = true →
      x = s := by
    intro x hx
    rw [Function.update_apply] at hx
    by_cases hxs : x = s
    · exact hxs
    · rw [if_neg hxs] at hx; cases hx
  refine bfsLoop_spec cap flow s t hst n [s]
    (Function.update (fun _ : Fin n => false) s true) par ?_ ?_ ?_ ?_ ?_ ?_
  · have := unvis_init s
    simp only [List.length_singleton]
    omega
  · rw [Function.update_apply]; simp
  · intro x hx
    simp at hx
    rw [hx, Function.update_apply]
    simp
  · rw [Function.update_apply, if_neg (Ne.symm hst)]
  · intro x hx
    rw [hvis x hx]
    refine ⟨[s], Chain.base, by simp, ?_, ?_⟩
    · intro y hy
      simp at hy
      rw [hy, Function.update_apply]
      simp
    · intro pr hpr
      simp [pairs] at hpr
  · intro x hx
    exact Or.inl (by simp [hvis x hx])

/-- When the sink is already visited, a neighbour scan can never report
success, and the sink's flag survives. -/
theorem bfsInner_sink_visited {n : ℕ} (cap flow : Mat n) (t u : Fin n) :
    ∀ (vs : List (Fin n)) (vis : Fin n → Bool) (par : Fin n → Option (Fin n))
      (q : List (Fin n)) (vis2 : Fin n → Bool)
      (par2 : Fin n → Option (Fin n)) (q2 : List (Fin n)) (fd : Bool),
      vis t = true →
      bfsInner cap flow t u vs vis par q = (vis2, par2, q2, fd) →
      fd = false ∧ vis2 t = true := by
  intro vs
  induction vs with
  | nil =>
    intro vis par q vis2 par2 q2 fd ht heq
    rw [bfsInner] at heq
    injection heq with h1 h2
    injection h2 with h2 h3
    injection h3 with h3 h4
    subst h1; subst h4
    exact ⟨rfl, ht⟩
  | cons v vs ih =>
    intro vis par q vis2 par2 q2 fd ht heq
    rw [bfsInner] at heq
    by_cases hcond : vis v = false ∧ resPos cap flow u v = true
    · rw [if_pos hcond] at heq
      have hvt : v ≠ t := fun he => by rw [he, ht] at hcond; cases hcond.1
      rw [if_neg hvt] at heq
      refine ih (Function.update vis v true) (Function.update par v (some u))
        (q ++ [v]) vis2 par2 q2 fd ?_ heq
      rw [Function.update_apply, if_neg (Ne.symm hvt)]
      exact ht
    · rw [if_neg hcond] at heq
      exact ih vis par q vis2 par2 q2 fd ht heq

/-- Calling `bfs` with identical source and sink always reports `False`: the source
is marked visited before the loop, so the `v == sink` test is unreachable. -/
theorem bfs_self {n : ℕ} (cap flow : Mat n) (s : Fin n)
    (par : Fin n → Option (Fin n)) : (bfs cap flow s s par).1 = false := by
  suffices h : ∀ (fuel : ℕ) (q : List (Fin n)) (vis : Fin n → Bool)
      (par : Fin n → Option (Fin n)), vis s = true →
      (bfsLoop cap flow s fuel q vis par).1 = false by
    refine h n [s] _ par ?_
    rw [Function.update_apply]
    simp
  intro fuel
  induction fuel with
  | zero =>
    intro q vis par hs
    cases q with
    | nil => rfl
    | cons u q1 => rfl
  | succ k ihf =>
    intro q vis par hs
    cases q with
    | nil => rfl
    | cons u q1 =>
      rcases hInner : bfsInner cap flow s u (List.finRange n) vis par q1 with
        ⟨vis2, par2, q2, fd⟩
      obtain ⟨hfd, hvis2⟩ :=
        bfsInner_sink_visited cap flow s u (List.finRange n) vis par q1
          vis2 par2 q2 fd hs hInner
      subst hfd
      have hres : bfsLoop cap flow s (k + 1) (u :: q1) vis par
          = bfsLoop cap flow s k q2 vis2 par2 := by
        rw [bfsLoop, hInner]
      rw [hres]
      exact ihf q2 vis2 par2 hvis2

/-- With identical endpoints the Edmonds-Karp loop never augments: the flow
matrix and accumulated `max_flow` of the state are returned untouched. -/
theorem ekLoop_self {n : ℕ} (cap : Mat n) (s : Fin n) :
    ∀ (fuel : ℕ) (st : EK n),
      (ekLoop cap s s fuel st).flow = st.flow ∧
      (ekLoop cap s s fuel st).mf = st.mf := by
  intro fuel
  induction fuel with
  | zero => intro st; exact ⟨rfl, rfl⟩
  | succ k ihf =>
    intro st
    rcases hbfs : bfs cap st.flow s s st.par with ⟨fd, par2⟩
    have hfd : fd = false := by
      have := bfs_self cap st.flow s st.par
      rw [hbfs] at this
      exact this
    subst hfd
    have hres : ekLoop cap s s (k + 1) st = ⟨st.flow, par2, st.mf⟩ := by
      rw [ekLoop, hbfs]
    rw [hres]
    exact ⟨rfl, rfl⟩

theorem pairs_exists_next {α : Type} {l : List α} {v : α} (hv : v ∈ l)
    (hlast : l.getLast? ≠ some v) : ∃ w, (v, w) ∈ pairs l := by
  induction l with
  | nil => simp at hv
  | cons x rest ih =>
    cases rest with
    | nil =>
      simp at hv
      rw [hv] at hlast
      simp at hlast
    | cons y rest2 =>
      rcases List.mem_cons.mp hv with hv2 | hv2
      · refine ⟨y, ?_⟩
        rw [hv2]
        simp [pairs]
      · have hlast2 : (y :: rest2 : List α).getLast? ≠ some v := by
          rw [← List.getLast?_cons_cons (a := x)]
          exact hlast
        obtain ⟨w, hw⟩ := ih hv2 hlast2
        exact ⟨w, by simp [pairs, hw]⟩

theorem pairs_exists_prev {α : Type} {l : List α} {v : α} (hn : l.Nodup)
    (hv : v ∈ l) (hhead : l.head? ≠ some v) : ∃ w, (w, v) ∈ pairs l := by
  induction l with
  | nil => simp at hv
  | cons x rest ih =>
    cases rest with
    | nil =>
      simp at hv
      rw [hv] at hhead
      simp at hhead
    | cons y rest2 =>
      have hxv : v ≠ x := by
        intro he
        rw [he] at hhead
        simp at hhead
      rcases List.mem_cons.mp hv with hv2 | hv2
      · exact absurd hv2 hxv
      · rcases List.mem_cons.mp hv2 with hv3 | hv3
        · refine ⟨x, ?_⟩
          rw [hv3]
          simp [pairs]
        · have hr : (y :: rest2 : List α).Nodup := (List.nodup_cons.mp hn).2
          have hyv : v ≠ y := by
            intro he
            have hy : y ∉ rest2 := (List.nodup_cons.mp hr).1
            rw [he] at hv3
            exact hy hv3
          have hhead2 : (y :: rest2 : List α).head? ≠ some v := by
            simp [Ne.symm hyv]
          obtain ⟨w, hw⟩ := ih hr hv2 hhead2
          exact ⟨w, by simp [pairs, hw]⟩

/-- A path starting inside a vertex set and ending outside it crosses the
boundary along one of its edges. -/
theorem pairs_crossing {α : Type} {S : α → Prop} :
    ∀ {l : List α} {h g : α}, l.head? = some h → S h →
      l.getLast? = some g → ¬S g →
      ∃ pr ∈ pairs l, S pr.1 ∧ ¬S pr.2 := by
  intro l
  induction l with
  | nil => intro h g hh; simp at hh
  | cons x rest ih =>
    intro h g hh hSh hg hSg
    cases rest with
    | nil =>
      simp at hh hg
      exfalso
      apply hSg
      rw [← hg, hh]
      exact hSh
    | cons y rest2 =>
      simp at hh
      by_cases hSy : S y
      · have hg2 : (y :: rest2 : List α).getLast? = some g := by
          rw [← hg]; simp [List.getLast?_cons_cons]
        obtain ⟨pr, hpr, hc⟩ := ih (h := y) (g := g) (by simp) hSy hg2 hSg
        exact ⟨pr, by simp [pairs, hpr], hc⟩
      · refine ⟨(x, y), by simp [pairs], ?_, hSy⟩
        rw [← hh] at hSh
        exact hSh

/-- Summing a row updated at two distinct places: the two deltas join the
total (this is where the signed infinities are allowed to collide). -/
theorem sum_update_two {n : ℕ} (g : Fin n → Val) (p w : Fin n) (hpw : p ≠ w)
    (X Y : Val) :
    (∑ j, Function.update (Function.update g w (g w + X)) p (g p + Y) j)
      = ((∑ j, g j) + X) + Y := by
  rw [Finset.sum_update_of_mem (Finset.mem_univ p)]
  have hw : w ∈ Finset.univ \ {p} := by
    simp [Ne.symm hpw]
  rw [Finset.sum_update_of_mem hw]
  rw [Finset.sum_eq_add_sum_diff_singleton (Finset.mem_univ p) g,
    Finset.sum_eq_add_sum_diff_singleton hw g]
  abel

/-- Everything the `while bfs` body of `edmonds_karp` does in the successful
case, packaged: the augmenting path as a chain of the returned parent array,
and the behaviour of the two walks along it. -/
theorem ek_aug_spec {n : ℕ} (cap : Mat n) (s t : Fin n) (st : EK n)
    (par2 : Fin n → Option (Fin n))
    (hbfs : bfs cap st.flow s t st.par = (true, par2)) :
    ∃ l, Chain par2 s t l ∧ l.Nodup ∧
      (∀ pr ∈ pairs l, resPos cap st.flow pr.1 pr.2 = true) ∧
      l.head? = some s ∧ l.getLast? = some t ∧
      (walkAug par2 s (walkMin cap st.flow par2 s n t Val.inf) n t st.flow
          = fun a b =>
            if (a, b) ∈ pairs l then
              vadd (st.flow a b) (walkMin cap st.flow par2 s n t Val.inf)
            else if (b, a) ∈ pairs l then
              vsub (st.flow a b) (walkMin cap st.flow par2 s n t Val.inf)
            else st.flow a b) ∧
      vpos (walkMin cap st.flow par2 s n t Val.inf) = true ∧
      (∀ pr ∈ pairs l,
        vle (walkMin cap st.flow par2 s n t Val.inf)
          (residual cap st.flow pr.1 pr.2) = true) ∧
      (walkMin cap st.flow par2 s n t Val.inf = Val.inf ∨
        ∃ pr ∈ pairs l, walkMin cap st.flow par2 s n t Val.inf
          = residual cap st.flow pr.1 pr.2) := by
  have hst : s ≠ t := by
    intro he
    subst he
    have := bfs_self cap st.flow s st.par
    rw [hbfs] at this
    cases this
  obtain ⟨htrue, _⟩ := bfs_spec cap st.flow s t hst st.par
  rw [hbfs] at htrue
  obtain ⟨l, hc, hnd, hres⟩ := htrue rfl
  have hlen : l.length ≤ n := hc.length_le hnd
  obtain ⟨m1, m2, m3, m4⟩ := walkMin_spec hc hres n (by omega) Val.inf rfl
  refine ⟨l, hc, hnd, hres, hc.head_eq, hc.getLast_eq,
    walkAug_spec hc hnd _ n (by omega) st.flow, m4, m2, ?_⟩
  rcases m3 with h | h
  · exact Or.inl h
  · exact Or.inr h

/-- Skew symmetry `flow[i][j] = -flow[j][i]` (as equality of values, with
`-inf` the negation of `inf`) is preserved by every iteration of the
Edmonds-Karp loop, for arbitrary capacity matrices. -/
theorem ekLoop_skew {n : ℕ} (cap : Mat n) (s t : Fin n) :
    ∀ (fuel : ℕ) (st : EK n),
      (∀ i j, st.flow i j = vneg (st.flow j i)) →
      ∀ i j, (ekLoop cap s t fuel st).flow i j
        = vneg ((ekLoop cap s t fuel st).flow j i) := by
  intro fuel
  induction fuel with
  | zero => intro st h; exact h
  | succ k ihf =>
    intro st h
    rcases hbfs : bfs cap st.flow s t st.par with ⟨fd, par2⟩
    cases fd with
    | false =>
      have hres : ekLoop cap s t (k + 1) st = ⟨st.flow, par2, st.mf⟩ := by
        rw [ekLoop, hbfs]
      rw [hres]
      exact h
    | true =>
      obtain ⟨l, hc, hnd, hres, hhead, hlast, hWA, hpf, hple, hpeq⟩ :=
        ek_aug_spec cap s t st par2 hbfs
      set pf := walkMin cap st.flow par2 s n t Val.inf with hpfdef
      have hstep : ekLoop cap s t (k + 1) st
          = ekLoop cap s t k ⟨walkAug par2 s pf n t st.flow, par2,
              vadd st.mf pf⟩ := by
        rw [ekLoop, hbfs]
      rw [hstep]
      refine ihf _ ?_
      intro i j
      show walkAug par2 s pf n t st.flow i j
        = vneg (walkAug par2 s pf n t st.flow j i)
      rw [hWA]
      by_cases hij : (i, j) ∈ pairs l
      · have hji : (j, i) ∉ pairs l := pairs_no_reverse hnd hij
        simp only [hij, if_true, hji, if_false]
        rw [vsub, vneg_vadd, vneg_vneg, ← h i j]
      · by_cases hji : (j, i) ∈ pairs l
        · simp only [hij, if_false, hji, if_true]
          rw [vsub, vneg_vadd, ← h i j]
        · simp only [hij, if_false, hji, if_false]
          exact h i j

/-- Flow conservation (the Val-level sum of a row equals the sum of the
column) at every non-terminal node is preserved by every iteration of the
Edmonds-Karp loop, for arbitrary capacity matrices. -/
theorem ekLoop_conserve {n : ℕ} (cap : Mat n) (s t : Fin n) :
    ∀ (fuel : ℕ) (st : EK n),
      (∀ v, v ≠ s → v ≠ t →
        (∑ j, st.flow v j) = (∑ j, st.flow j v)) →
      ∀ v, v ≠ s → v ≠ t →
        (∑ j, (ekLoop cap s t fuel st).flow v j)
          = (∑ j, (ekLoop cap s t fuel st).flow j v) := by
  intro fuel
  induction fuel with
  | zero => intro st h; exact h
  | succ k ihf =>
    intro st h
    rcases hbfs : bfs cap st.flow s t st.par with ⟨fd, par2⟩
    cases fd with
    | false =>
      have hres : ekLoop cap s t (k + 1) st = ⟨st.flow, par2, st.mf⟩ := by
        rw [ekLoop, hbfs]
      rw [hres]
      exact h
    | true =>
      obtain ⟨l, hc, hnd, hres, hhead, hlast, hWA, hpf, hple, hpeq⟩ :=
        ek_aug_spec cap s t st par2 hbfs
      set pf := walkMin cap st.flow par2 s n t Val.inf with hpfdef
      have hstep : ekLoop cap s t (k + 1) st
          = ekLoop cap s t k ⟨walkAug par2 s pf n t st.flow, par2,
              vadd st.mf pf⟩ := by
        rw [ekLoop, hbfs]
      rw [hstep]
      refine ihf _ ?_
      intro v hvs hvt
      show (∑ j, walkAug par2 s pf n t st.flow v j)
        = (∑ j, walkAug par2 s pf n t st.flow j v)
      by_cases hvl : v ∈ l
      · obtain ⟨w, hw⟩ := pairs_exists_next hvl
          (by
            rw [hlast]
            intro hcon
            injection hcon with hcon2
            exact hvt hcon2.symm)
        obtain ⟨p, hp⟩ := pairs_exists_prev hnd hvl
          (by
            rw [hhead]
            intro hcon
            injection hcon with hcon2
            exact hvs hcon2.symm)
        have hpw : p ≠ w := by
          intro he
          subst he
          exact pairs_no_reverse hnd hp hw
        have hrow : (fun j => walkAug par2 s pf n t st.flow v j)
            = Function.update (Function.update (st.flow v) w
                (st.flow v w + pf)) p (st.flow v p + vneg pf) := by
          funext j
          rw [hWA]
          by_cases hjp : j = p
          · subst hjp
            have h1 : (v, j) ∉ pairs l := pairs_no_reverse hnd hp
            simp only [h1, if_false, hp, if_true]
            rw [Function.update_apply, if_pos rfl]
            rfl
          · by_cases hjw : j = w
            · subst hjw
              simp only [hw, if_true]
              rw [Function.update_apply, if_neg hjp,
                Function.update_apply, if_pos rfl]
              rfl
            · have h1 : (v, j) ∉ pairs l := by
                intro hmem
                exact hjw (pairs_uniq_next hnd hmem hw)
              have h2 : (j, v) ∉ pairs l := by
                intro hmem
                exact hjp (pairs_uniq_prev hnd hmem hp)
              simp only [h1, if_false, h2, if_false]
              rw [Function.update_apply, if_neg hjp, Function.update_apply,
                if_neg hjw]
        have hcol : (fun j => walkAug par2 s pf n t st.flow j v)
            = Function.update (Function.update (fun j => st.flow j v) p
                (st.flow p v + pf)) w (st.flow w v + vneg pf) := by
          funext j
          rw [hWA]
          by_cases hjw : j = w
          · subst hjw
            have h1 : (j, v) ∉ pairs l := pairs_no_reverse hnd hw
            simp only [h1, if_false, hw, if_true]
            rw [Function.update_apply, if_pos rfl]
            rfl
          · by_cases hjp : j = p
            · subst hjp
              simp only [hp, if_true]
              rw [Function.update_apply, if_neg hjw,
                Function.update_apply, if_pos rfl]
              rfl
            · have h1 : (j, v) ∉ pairs l := by
                intro hmem
                exact hjp (pairs_uniq_prev hnd hmem hp)
              have h2 : (v, j) ∉ pairs l := by
                intro hmem
                exact hjw (pairs_uniq_next hnd hmem hw)
              simp only [h1, if_false, h2, if_false]
              rw [Function.update_apply, if_neg hjw, Function.update_apply,
                if_neg hjp]
        have hrowsum : (∑ j, walkAug par2 s pf n t st.flow v j)
            = ((∑ j, st.flow v j) + pf) + vneg pf := by
          have h1 : (∑ j, walkAug par2 s pf n t st.flow v j)
              = ∑ j, Function.update (Function.update (st.flow v) w
                  (st.flow v w + pf)) p (st.flow v p + vneg pf) j :=
            Finset.sum_congr rfl fun j _ => congrFun hrow j
          rw [h1, sum_update_two (st.flow v) p w hpw pf (vneg pf)]
        have hcolsum : (∑ j, walkAug par2 s pf n t st.flow j v)
            = ((∑ j, st.flow j v) + pf) + vneg pf := by
          have h1 : (∑ j, walkAug par2 s pf n t st.flow j v)
              = ∑ j, Function.update (Function.update (fun j => st.flow j v) p
                  (st.flow p v + pf)) w (st.flow w v + vneg pf) j :=
            Finset.sum_congr rfl fun j _ => congrFun hcol j
          rw [h1, sum_update_two (fun j => st.flow j v) w p (Ne.symm hpw)
            pf (vneg pf)]
        rw [hrowsum, hcolsum, h v hvs hvt]
      · have hrow : ∀ j, walkAug par2 s pf n t st.flow v j = st.flow v j := by
          intro j
          rw [hWA]
          have h1 : (v, j) ∉ pairs l := fun hmem => hvl (pairs_mem_left hmem)
          have h2 : (j, v) ∉ pairs l := fun hmem => hvl (pairs_mem_right hmem)
          simp only [h1, if_false, h2, if_false]
        have hcol : ∀ j, walkAug par2 s pf n t st.flow j v = st.flow j v := by
          intro j
          rw [hWA]
          have h1 : (j, v) ∉ pairs l := fun hmem => hvl (pairs_mem_right hmem)
          have h2 : (v, j) ∉ pairs l := fun hmem => hvl (pairs_mem_left hmem)
          simp only [h1, if_false, h2, if_false]
        rw [Finset.sum_congr rfl fun j _ => hrow j,
          Finset.sum_congr rfl fun j _ => hcol j]
        exact h v hvs hvt

theorem validCap_cases {n : ℕ} {cap : Mat n} (hV : ValidCap cap)
    (i j : Fin n) :
    cap i j = Val.inf ∨ ∃ z : ℤ, 0 ≤ z ∧ cap i j = Val.num z := by
  rcases hV i j with h | ⟨h1, h2⟩
  · exact Or.inl h
  · obtain ⟨z, hz⟩ := isNum_iff.mp h1
    refine Or.inr ⟨z, ?_, hz⟩
    rw [hz] at h2
    exact h2

theorem val_sum_num {n : ℕ} (g : Fin n → Val)
    (h : ∀ j, isNum (g j) = true) :
    (∑ j, g j) = Val.num (∑ j, toZ (g j)) := by
  classical
  have hgen : ∀ s : Finset (Fin n),
      (∑ j ∈ s, g j) = Val.num (∑ j ∈ s, toZ (g j)) := by
    intro s
    induction s using Finset.induction_on with
    | empty => rfl
    | insert hnotmem ih =>
      rename_i a s2
      rw [Finset.sum_insert hnotmem, Finset.sum_insert hnotmem, ih]
      obtain ⟨z, hz⟩ := isNum_iff.mp (h a)
      rw [hz]
      rfl
  exact hgen Finset.univ

theorem toZ_skew {n : ℕ} (f : Mat n) (hfin : ∀ i j, isNum (f i j) = true)
    (hskew : ∀ i j, f i j = vneg (f j i)) :
    ∀ i j, toZ (f i j) = -toZ (f j i) := by
  intro i j
  obtain ⟨a, ha⟩ := isNum_iff.mp (hfin i j)
  obtain ⟨b, hb⟩ := isNum_iff.mp (hfin j i)
  have := hskew i j
  rw [ha, hb] at this
  simp [vneg] at this
  rw [ha, hb, this]
  rfl

/-- Value of a finite skew-symmetric conserved flow across any cut containing
the source but not the sink: the net flow out of the source equals the total
flow crossing the cut. -/
theorem cut_value {n : ℕ} (f : Mat n) (s t : Fin n)
    (hskewZ : ∀ i j, toZ (f i j) = -toZ (f j i))
    (hcons : ∀ v, v ≠ s → v ≠ t → netZ f v = 0)
    (R : Finset (Fin n)) (hsR : s ∈ R) (htR : t ∉ R) :
    netZ f s = ∑ u ∈ R, ∑ v ∈ Rᶜ, toZ (f u v) := by
  classical
  have hsplit : ∀ u : Fin n, netZ f u
      = (∑ v ∈ R, toZ (f u v)) + ∑ v ∈ Rᶜ, toZ (f u v) := by
    intro u
    rw [netZ, ← Finset.sum_add_sum_compl R (fun v => toZ (f u v))]
  have hRR : (∑ u ∈ R, ∑ v ∈ R, toZ (f u v)) = 0 := by
    have hswap : (∑ u ∈ R, ∑ v ∈ R, toZ (f u v))
        = ∑ u ∈ R, ∑ v ∈ R, toZ (f v u) := Finset.sum_comm
    have hneg : (∑ u ∈ R, ∑ v ∈ R, toZ (f v u))
        = -∑ u ∈ R, ∑ v ∈ R, toZ (f u v) := by
      rw [← Finset.sum_neg_distrib]
      refine Finset.sum_congr rfl fun u _ => ?_
      rw [← Finset.sum_neg_distrib]
      refine Finset.sum_congr rfl fun v _ => ?_
      rw [hskewZ v u]
    omega
  have hsum : (∑ u ∈ R, netZ f u) = netZ f s := by
    rw [Finset.sum_eq_add_sum_diff_singleton hsR (netZ f)]
    have hzero : (∑ u ∈ R \ {s}, netZ f u) = 0 := by
      refine Finset.sum_eq_zero fun u hu => ?_
      simp only [Finset.mem_sdiff, Finset.mem_singleton] at hu
      refine hcons u hu.2 fun he => htR (he ▸ hu.1)
    rw [hzero]
    omega
  have : (∑ u ∈ R, netZ f u)
      = (∑ u ∈ R, ∑ v ∈ R, toZ (f u v))
        + ∑ u ∈ R, ∑ v ∈ Rᶜ, toZ (f u v) := by
    rw [← Finset.sum_add_distrib]
    exact Finset.sum_congr rfl fun u _ => hsplit u
  omega

/-- All consequences of one successful `bfs` + augmentation round of
`edmonds_karp` under the finite-cut hypothesis: the bottleneck is a positive
integer, the new flow stays integral, keeps respecting finite capacities, and
the net flow out of the source grows by exactly the bottleneck. -/
theorem ek_true_step {n : ℕ} (cap : Mat n) (s t : Fin n) (S : Finset (Fin n))
    (hV : ValidCap cap) (hS1 : s ∈ S) (hS2 : t ∉ S)
    (hS3 : ∀ u ∈ S, ∀ v, v ∉ S → cap u v ≠ Val.inf)
    (st : EK n) (par2 : Fin n → Option (Fin n))
    (hbfs : bfs cap st.flow s t st.par = (true, par2))
    (hfin : ∀ i j, isNum (st.flow i j) = true)
    (hcapb : ∀ i j z, cap i j = Val.num z → toZ (st.flow i j) ≤ z) :
    ∃ p : ℤ, walkMin cap st.flow par2 s n t Val.inf = Val.num p ∧ 1 ≤ p ∧
      (∀ i j, isNum
        (walkAug par2 s (walkMin cap st.flow par2 s n t Val.inf) n t
          st.flow i j) = true) ∧
      (∀ i j z, cap i j = Val.num z →
        toZ (walkAug par2 s (walkMin cap st.flow par2 s n t Val.inf) n t
          st.flow i j) ≤ z) ∧
      netZ (walkAug par2 s (walkMin cap st.flow par2 s n t Val.inf) n t
        st.flow) s = netZ st.flow s + p := by
  obtain ⟨l, hc, hnd, hres, hhead, hlast, hWA, hpf, hple, hpeq⟩ :=
    ek_aug_spec cap s t st par2 hbfs
  set pf := walkMin cap st.flow par2 s n t Val.inf with hpfdef
  have hst : s ≠ t := fun he => hS2 (he ▸ hS1)
  -- the path crosses the cut along some edge with finite capacity
  obtain ⟨cr, hcrl, hcr1, hcr2⟩ :=
    pairs_crossing (S := fun x => x ∈ S) hhead hS1 hlast hS2
  have hcapcr : ∃ z : ℤ, 0 ≤ z ∧ cap cr.1 cr.2 = Val.num z := by
    rcases validCap_cases hV cr.1 cr.2 with hinf | hfin2
    · exact absurd hinf (hS3 cr.1 hcr1 cr.2 hcr2)
    · exact hfin2
  obtain ⟨zc, hzc0, hzc⟩ := hcapcr
  obtain ⟨fc, hfc⟩ := isNum_iff.mp (hfin cr.1 cr.2)
  have hrescr : residual cap st.flow cr.1 cr.2 = Val.num (zc - fc) := by
    rw [residual, hzc, hfc]
    rfl
  -- the bottleneck is a positive integer
  obtain ⟨p, hp0, hp⟩ : ∃ p : ℤ, 0 < p ∧ pf = Val.num p := by
    rcases vpos_iff.mp hpf with ⟨p, hp0, hp⟩ | hinf
    · exact ⟨p, hp0, hp⟩
    · exfalso
      have := hple cr hcrl
      rw [hinf, hrescr] at this
      cases this
  refine ⟨p, hp, by omega, ?_, ?_, ?_⟩
  · intro i j
    rw [hWA]
    obtain ⟨z, hz⟩ := isNum_iff.mp (hfin i j)
    by_cases h1 : (i, j) ∈ pairs l
    · simp only [h1, if_true]
      rw [hz, hp]
      rfl
    · by_cases h2 : (j, i) ∈ pairs l
      · simp only [h1, if_false, h2, if_true]
        rw [hz, hp]
        rfl
      · simp only [h1, if_false, h2, if_false]
        rw [hz]
        rfl
  · intro i j z hcapz
    rw [hWA]
    obtain ⟨fz, hfz⟩ := isNum_iff.mp (hfin i j)
    by_cases h1 : (i, j) ∈ pairs l
    · simp only [h1, if_true]
      have hres1 : residual cap st.flow i j = Val.num (z - fz) := by
        rw [residual, hcapz, hfz]
        rfl
      have := hple (i, j) h1
      rw [hp, hres1] at this
      simp only [vle, decide_eq_true_eq] at this
      rw [hfz, hp]
      show fz + p ≤ z
      omega
    · by_cases h2 : (j, i) ∈ pairs l
      · simp only [h1, if_false, h2, if_true]
        have := hcapb i j z hcapz
        rw [hfz] at this
        rw [hfz, hp]
        show fz + -p ≤ z
        simp only [toZ] at this
        omega
      · simp only [h1, if_false, h2, if_false]
        exact hcapb i j z hcapz
  · -- net flow out of the source grows by exactly p
    have hsl : s ∈ l := hc.source_mem
    obtain ⟨w, hw⟩ := pairs_exists_next hsl
      (by
        rw [hlast]
        intro hcon
        injection hcon with hcon2
        exact hst hcon2.symm)
    have hnoprev : ∀ b, (b, s) ∉ pairs l := by
      intro b
      cases l with
      | nil => simp [pairs]
      | cons x rest =>
        have hx : x = s := by
          rw [List.head?_cons] at hhead
          injection hhead with h2
        rw [← hx]
        exact pairs_head_not_right hnd
    have hrowZ : (fun j => toZ (walkAug par2 s pf n t st.flow s j))
        = Function.update (fun j => toZ (st.flow s j)) w
            (toZ (st.flow s w) + p) := by
      funext j
      rw [hWA]
      by_cases hjw : j = w
      · subst hjw
        simp only [hw, if_true]
        rw [Function.update_apply, if_pos rfl]
        obtain ⟨fz, hfz⟩ := isNum_iff.mp (hfin s j)
        rw [hfz, hp]
        rfl
      · have h1 : (s, j) ∉ pairs l := by
          intro hmem
          exact hjw (pairs_uniq_next hnd hmem hw)
        have h2 : (j, s) ∉ pairs l := hnoprev j
        simp only [h1, if_false, h2, if_false]
        rw [Function.update_apply, if_neg hjw]
    have hnet : netZ (walkAug par2 s pf n t st.flow) s
        = ∑ j, Function.update (fun j => toZ (st.flow s j)) w
            (toZ (st.flow s w) + p) j := by
      rw [netZ]
      exact Finset.sum_congr rfl fun j _ => congrFun hrowZ j
    rw [hnet, Finset.sum_update_of_mem (Finset.mem_univ w)]
    rw [netZ, Finset.sum_eq_add_sum_diff_singleton (Finset.mem_univ w)
      (fun j => toZ (st.flow s j))]
    omega

/-- Preservation, over any number of loop iterations, of the hypothesized
invariants: integral flow, respect of finite capacities, and `max_flow`
equal to the integer net flow out of the source. -/
theorem ekLoop_inv {n : ℕ} (cap : Mat n) (s t : Fin n) (S : Finset (Fin n))
    (hV : ValidCap cap) (hS1 : s ∈ S) (hS2 : t ∉ S)
    (hS3 : ∀ u ∈ S, ∀ v, v ∉ S → cap u v ≠ Val.inf) :
    ∀ (fuel : ℕ) (st : EK n),
      (∀ i j, isNum (st.flow i j) = true) →
      (∀ i j z, cap i j = Val.num z → toZ (st.flow i j) ≤ z) →
      st.mf = Val.num (netZ st.flow s) →
      ((∀ i j, isNum ((ekLoop cap s t fuel st).flow i j) = true) ∧
       (∀ i j z, cap i j = Val.num z →
         toZ ((ekLoop cap s t fuel st).flow i j) ≤ z) ∧
       (ekLoop cap s t fuel st).mf
         = Val.num (netZ (ekLoop cap s t fuel st).flow s)) := by
  intro fuel
  induction fuel with
  | zero => intro st h1 h2 h3; exact ⟨h1, h2, h3⟩
  | succ k ihf =>
    intro st h1 h2 h3
    rcases hbfs : bfs cap st.flow s t st.par with ⟨fd, par2⟩
    cases fd with
    | false =>
      have hres : ekLoop cap s t (k + 1) st = ⟨st.flow, par2, st.mf⟩ := by
        rw [ekLoop, hbfs]
      rw [hres]
      exact ⟨h1, h2, h3⟩
    | true =>
      obtain ⟨p, hp, hp1, hfin2, hcapb2, hnet2⟩ :=
        ek_true_step cap s t S hV hS1 hS2 hS3 st par2 hbfs h1 h2
      have hstep : ekLoop cap s t (k + 1) st
          = ekLoop cap s t k
              ⟨walkAug par2 s (walkMin cap st.flow par2 s n t Val.inf) n t
                st.flow, par2,
                vadd st.mf (walkMin cap st.flow par2 s n t Val.inf)⟩ := by
        rw [ekLoop, hbfs]
      rw [hstep]
      refine ihf _ hfin2 hcapb2 ?_
      show vadd st.mf (walkMin cap st.flow par2 s n t Val.inf) = _
      rw [h3, hnet2, hp]
      rfl

/-- The flow value is bounded by the total finite capacity crossing the
separating cut, at every state satisfying the invariants. -/
theorem value_le_cut {n : ℕ} (cap : Mat n) (s t : Fin n)
    (S : Finset (Fin n)) (hV : ValidCap cap) (hS1 : s ∈ S) (hS2 : t ∉ S)
    (hS3 : ∀ u ∈ S, ∀ v, v ∉ S → cap u v ≠ Val.inf) (f : Mat n)
    (hfin : ∀ i j, isNum (f i j) = true)
    (hcapb : ∀ i j z, cap i j = Val.num z → toZ (f i j) ≤ z)
    (hskew : ∀ i j, f i j = vneg (f j i))
    (hcons : ∀ v, v ≠ s → v ≠ t → netZ f v = 0) :
    netZ f s ≤ ∑ u ∈ S, ∑ v ∈ Sᶜ, toZ (cap u v) := by
  rw [cut_value f s t (toZ_skew f hfin hskew) hcons S hS1 hS2]
  refine Finset.sum_le_sum fun u hu => ?_
  refine Finset.sum_le_sum fun v hv => ?_
  have hvS : v ∉ S := by simpa using hv
  rcases validCap_cases hV u v with hinf | ⟨z, hz0, hz⟩
  · exact absurd hinf (hS3 u hu v hvS)
  · rw [hz]
    have := hcapb u v z hz
    simpa [toZ] using this

theorem netZ_zero_of_conserve {n : ℕ} (f : Mat n)
    (hfin : ∀ i j, isNum (f i j) = true)
    (hskew : ∀ i j, f i j = vneg (f j i)) (v : Fin n)
    (hval : (∑ j, f v j) = (∑ j, f j v)) : netZ f v = 0 := by
  have hrow := val_sum_num (fun j => f v j) (fun j => hfin v j)
  have hcol := val_sum_num (fun j => f j v) (fun j => hfin j v)
  rw [hrow, hcol] at hval
  injection hval with hval2
  have hval3 : (∑ j, toZ (f v j)) = ∑ j, toZ (f j v) := hval2
  have hskewZ := toZ_skew f hfin hskew
  have hneg : (∑ j, toZ (f j v)) = -∑ j, toZ (f v j) := by
    rw [← Finset.sum_neg_distrib]
    exact Finset.sum_congr rfl fun j _ => hskewZ j v
  rw [netZ]
  omega

/-- Termination of the Edmonds-Karp loop under the finite-cut hypothesis:
from any state satisfying the invariants, after finitely many iterations
`bfs` reports that no augmenting path remains. -/
theorem ek_terminates_from {n : ℕ} (cap : Mat n) (s t : Fin n)
    (S : Finset (Fin n)) (hV : ValidCap cap) (hS1 : s ∈ S) (hS2 : t ∉ S)
    (hS3 : ∀ u ∈ S, ∀ v, v ∉ S → cap u v ≠ Val.inf) :
    ∀ (k : ℕ) (st : EK n),
      (∀ i j, isNum (st.flow i j) = true) →
      (∀ i j z, cap i j = Val.num z → toZ (st.flow i j) ≤ z) →
      st.mf = Val.num (netZ st.flow s) →
      (∀ i j, st.flow i j = vneg (st.flow j i)) →
      (∀ v, v ≠ s → v ≠ t → (∑ j, st.flow v j) = (∑ j, st.flow j v)) →
      ((∑ u ∈ S, ∑ v ∈ Sᶜ, toZ (cap u v)) - netZ st.flow s).toNat ≤ k →
      ∃ N, (bfs cap (ekLoop cap s t N st).flow s t
        (ekLoop cap s t N st).par).1 = false := by
  intro k
  induction k with
  | zero =>
    intro st h1 h2 h3 h4 h5 hk
    rcases hbfs : bfs cap st.flow s t st.par with ⟨fd, par2⟩
    cases fd with
    | false =>
      refine ⟨0, ?_⟩
      show (bfs cap st.flow s t st.par).1 = false
      rw [hbfs]
    | true =>
      exfalso
      obtain ⟨p, hp, hp1, hfin2, hcapb2, hnet2⟩ :=
        ek_true_step cap s t S hV hS1 hS2 hS3 st par2 hbfs h1 h2
      -- the next state still has value at most the cut bound, so the current
      -- value is at least p below the bound; this contradicts the exhausted
      -- counter
      have hstep1 : ekLoop cap s t 1 st
          = ⟨walkAug par2 s (walkMin cap st.flow par2 s n t Val.inf) n t
              st.flow, par2,
              vadd st.mf (walkMin cap st.flow par2 s n t Val.inf)⟩ := by
        rw [ekLoop, hbfs]
        rfl
      have hskew2 := ekLoop_skew cap s t 1 st h4
      have hcons2 := ekLoop_conserve cap s t 1 st h5
      rw [hstep1] at hskew2 hcons2
      have hle := value_le_cut cap s t S hV hS1 hS2 hS3 _ hfin2 hcapb2
        hskew2 (fun v hvs hvt =>
          netZ_zero_of_conserve _ hfin2 hskew2 v (hcons2 v hvs hvt))
      rw [hnet2] at hle
      omega
  | succ k2 ihk =>
    intro st h1 h2 h3 h4 h5 hk
    rcases hbfs : bfs cap st.flow s t st.par with ⟨fd, par2⟩
    cases fd with
    | false =>
      refine ⟨0, ?_⟩
      show (bfs cap st.flow s t st.par).1 = false
      rw [hbfs]
    | true =>
      obtain ⟨p, hp, hp1, hfin2, hcapb2, hnet2⟩ :=
        ek_true_step cap s t S hV hS1 hS2 hS3 st par2 hbfs h1 h2
      have hstep1 : ekLoop cap s t 1 st
          = ⟨walkAug par2 s (walkMin cap st.flow par2 s n t Val.inf) n t
              st.flow, par2,
              vadd st.mf (walkMin cap st.flow par2 s n t Val.inf)⟩ := by
        rw [ekLoop, hbfs]
        rfl
      have hskew2 := ekLoop_skew cap s t 1 st h4
      have hcons2 := ekLoop_conserve cap s t 1 st h5
      rw [hstep1] at hskew2 hcons2
      have hle := value_le_cut cap s t S hV hS1 hS2 hS3 _ hfin2 hcapb2
        hskew2 (fun v hvs hvt =>
          netZ_zero_of_conserve _ hfin2 hskew2 v (hcons2 v hvs hvt))
      rw [hnet2] at hle
      have hmf2 : (⟨walkAug par2 s (walkMin cap st.flow par2 s n t Val.inf)
          n t st.flow, par2,
          vadd st.mf (walkMin cap st.flow par2 s n t Val.inf)⟩ : EK n).mf
          = Val.num (netZ (walkAug par2 s
              (walkMin cap st.flow par2 s n t Val.inf) n t st.flow) s) := by
        show vadd st.mf (walkMin cap st.flow par2 s n t Val.inf) = _
        rw [h3, hnet2, hp]
        rfl
      obtain ⟨N, hN⟩ := ihk
        ⟨walkAug par2 s (walkMin cap st.flow par2 s n t Val.inf) n t
          st.flow, par2, vadd st.mf (walkMin cap st.flow par2 s n t Val.inf)⟩
        hfin2 hcapb2 hmf2 hskew2 hcons2 (by
          show ((∑ u ∈ S, ∑ v ∈ Sᶜ, toZ (cap u v))
            - netZ (walkAug par2 s (walkMin cap st.flow par2 s n t Val.inf)
                n t st.flow) s).toNat ≤ k2
          rw [hnet2]
          omega)
      refine ⟨N + 1, ?_⟩
      have hstep : ekLoop cap s t (N + 1) st
          = ekLoop cap s t N
              ⟨walkAug par2 s (walkMin cap st.flow par2 s n t Val.inf) n t
                st.flow, par2,
                vadd st.mf (walkMin cap st.flow par2 s n t Val.inf)⟩ := by
        rw [ekLoop, hbfs]
      rw [hstep]
      exact hN

/-- When `bfs` finds no augmenting path, the residual-reachable set is a cut
whose crossing edges all have finite capacity and are saturated. -/
theorem terminal_saturated {n : ℕ} (cap f : Mat n) (s t : Fin n)
    (hst : s ≠ t) (par : Fin n → Option (Fin n))
    (hbfs : (bfs cap f s t par).1 = false) (hV : ValidCap cap)
    (hfin : ∀ i j, isNum (f i j) = true)
    (hcapb : ∀ i j z, cap i j = Val.num z → toZ (f i j) ≤ z) :
    ∃ V : Finset (Fin n), s ∈ V ∧ t ∉ V ∧
      ∀ u ∈ V, ∀ v, v ∉ V → ∃ z : ℤ, cap u v = Val.num z ∧ toZ (f u v) = z := by
  obtain ⟨_, hfalse⟩ := bfs_spec cap f s t hst par
  obtain ⟨V, hsV, htV, hclosed⟩ := hfalse hbfs
  refine ⟨V, hsV, htV, ?_⟩
  intro u hu v hv
  have hnotres : resPos cap f u v = false := by
    by_cases h : resPos cap f u v = true
    · exact absurd (hclosed u hu v h) hv
    · simpa using h
  obtain ⟨fz, hfz⟩ := isNum_iff.mp (hfin u v)
  rcases validCap_cases hV u v with hinf | ⟨z, hz0, hz⟩
  · exfalso
    rw [resPos, residual, hinf, hfz] at hnotres
    simp [vsub, vneg, vadd, vpos, vlt] at hnotres
  · refine ⟨z, hz, ?_⟩
    rw [resPos, residual, hz, hfz] at hnotres
    have hle := hcapb u v z hz
    rw [hfz] at hle
    simp only [vsub, vneg, vadd, vpos, vlt, decide_eq_false_iff_not,
      not_lt] at hnotres
    rw [hfz]
    simp only [toZ] at hle ⊢
    omega

/-- Weak duality: the value of any finite conserved flow respecting the
capacities is at most the capacity of every cut. -/
theorem value_le_cutCap {n : ℕ} (cap f : Mat n) (s t : Fin n)
    (hV : ValidCap cap) (hfin : ∀ i j, isNum (f i j) = true)
    (hcapb : ∀ i j z, cap i j = Val.num z → toZ (f i j) ≤ z)
    (hskew : ∀ i j, f i j = vneg (f j i))
    (hcons : ∀ v, v ≠ s → v ≠ t → netZ f v = 0)
    (R : Finset (Fin n)) (hsR : s ∈ R) (htR : t ∉ R) :
    (netZ f s : WithTop ℤ) ≤ cutCap cap R := by
  rw [cut_value f s t (toZ_skew f hfin hskew) hcons R hsR htR, cutCap]
  rw [WithTop.coe_sum]
  refine Finset.sum_le_sum fun u _ => ?_
  rw [WithTop.coe_sum]
  refine Finset.sum_le_sum fun v _ => ?_
  rcases validCap_cases hV u v with hinf | ⟨z, hz0, hz⟩
  · rw [hinf]
    exact le_top
  · rw [hz]
    have hle2 := hcapb u v z hz
    show (toZ (f u v) : WithTop ℤ) ≤ (z : WithTop ℤ)
    exact_mod_cast hle2

/-- Once `bfs` reports no path, further loop iterations leave the flow matrix
and `max_flow` untouched. -/
theorem ek_stable {n : ℕ} (cap : Mat n) (s t : Fin n) :
    ∀ (fuel : ℕ) (st : EK n),
      (bfs cap st.flow s t st.par).1 = false →
      (ekLoop cap s t fuel st).flow = st.flow ∧
      (ekLoop cap s t fuel st).mf = st.mf := by
  intro fuel st hb
  cases fuel with
  | zero => exact ⟨rfl, rfl⟩
  | succ k =>
    rcases hbfs : bfs cap st.flow s t st.par with ⟨fd, par2⟩
    rw [hbfs] at hb
    subst hb
    have hres : ekLoop cap s t (k + 1) st = ⟨st.flow, par2, st.mf⟩ := by
      rw [ekLoop, hbfs]
    rw [hres]
    exact ⟨rfl, rfl⟩

/-- Once the loop has terminated after `N` iterations, allowing more fuel
does not change the computed flow matrix or `max_flow`. -/
theorem ekLoop_stable_from {n : ℕ} (cap : Mat n) (s t : Fin n) :
    ∀ (N : ℕ) (st : EK n) (m : ℕ), N ≤ m →
      (bfs cap (ekLoop cap s t N st).flow s t
        (ekLoop cap s t N st).par).1 = false →
      (ekLoop cap s t m st).flow = (ekLoop cap s t N st).flow ∧
      (ekLoop cap s t m st).mf = (ekLoop cap s t N st).mf := by
  intro N
  induction N with
  | zero =>
    intro st m _ hterm
    exact ek_stable cap s t m st hterm
  | succ k ihN =>
    intro st m hm hterm
    obtain ⟨m2, rfl⟩ : ∃ m2, m = m2 + 1 := by
      cases m with
      | zero => omega
      | succ m2 => exact ⟨m2, rfl⟩
    rcases hbfs : bfs cap st.flow s t st.par with ⟨fd, par2⟩
    cases fd with
    | false =>
      have hres1 : ekLoop cap s t (k + 1) st = ⟨st.flow, par2, st.mf⟩ := by
        rw [ekLoop, hbfs]
      have hres2 : ekLoop cap s t (m2 + 1) st = ⟨st.flow, par2, st.mf⟩ := by
        rw [ekLoop, hbfs]
      rw [hres1, hres2]
      exact ⟨rfl, rfl⟩
    | true =>
      have hres1 : ekLoop cap s t (k + 1) st
          = ekLoop cap s t k
              ⟨walkAug par2 s (walkMin cap st.flow par2 s n t Val.inf) n t
                st.flow, par2,
                vadd st.mf (walkMin cap st.flow par2 s n t Val.inf)⟩ := by
        rw [ekLoop, hbfs]
      have hres2 : ekLoop cap s t (m2 + 1) st
          = ekLoop cap s t m2
              ⟨walkAug par2 s (walkMin cap st.flow par2 s n t Val.inf) n t
                st.flow, par2,
                vadd st.mf (walkMin cap st.flow par2 s n t Val.inf)⟩ := by
        rw [ekLoop, hbfs]
      rw [hres1] at hterm ⊢
      rw [hres2]
      exact ihN _ m2 (by omega) hterm

theorem ekInit_facts {n : ℕ} (cap : Mat n) (s : Fin n) (hV : ValidCap cap) :
    (∀ i j, isNum ((ekInit n).flow i j) = true) ∧
    (∀ i j z, cap i j = Val.num z → toZ ((ekInit n).flow i j) ≤ z) ∧
    (ekInit n).mf = Val.num (netZ (ekInit n).flow s) ∧
    (∀ i j, (ekInit n).flow i j = vneg ((ekInit n).flow j i)) ∧
    (∀ v : Fin n, (∑ j, (ekInit n).flow v j) = (∑ j, (ekInit n).flow j v)) := by
  refine ⟨fun i j => rfl, ?_, ?_, ?_, fun v => rfl⟩
  · intro i j z hz
    rcases validCap_cases hV i j with hinf | ⟨z2, hz20, hz2⟩
    · rw [hinf] at hz; cases hz
    · rw [hz2] at hz
      injection hz with hz3
      show (0 : ℤ) ≤ z
      omega
  · show Val.num 0 = Val.num (netZ (ekInit n).flow s)
    have : netZ (ekInit n).flow s = 0 := by
      simp [netZ, ekInit, toZ]
    rw [this]
  · intro i j
    show Val.num 0 = vneg (Val.num 0)
    simp [vneg]

/-- Main theorem about the Edmonds-Karp engine under the finite-cut
hypothesis: the loop terminates, the result is stable under extra fuel, and
the final `max_flow` is an integer equal to the minimum cut capacity. -/
theorem ek_main {n : ℕ} (cap : Mat n) (s t : Fin n) (hV : ValidCap cap)
    (S : Finset (Fin n)) (hS1 : s ∈ S) (hS2 : t ∉ S)
    (hS3 : ∀ u ∈ S, ∀ v, v ∉ S → cap u v ≠ Val.inf) :
    ∃ N, (bfs cap (ekLoop cap s t N (ekInit n)).flow s t
        (ekLoop cap s t N (ekInit n)).par).1 = false ∧
      (∀ m, N ≤ m → edmonds_karp m cap s t = edmonds_karp N cap s t) ∧
      ∃ M : ℤ, (edmonds_karp N cap s t).1 = Val.num M ∧
        IsLeast {c : WithTop ℤ | ∃ R : Finset (Fin n),
          s ∈ R ∧ t ∉ R ∧ cutCap cap R = c} (M : WithTop ℤ) := by
  have hst : s ≠ t := fun he => hS2 (he ▸ hS1)
  obtain ⟨i1, i2, i3, i4, i5⟩ := ekInit_facts cap s hV
  obtain ⟨N, hN⟩ := ek_terminates_from cap s t S hV hS1 hS2 hS3
    ((∑ u ∈ S, ∑ v ∈ Sᶜ, toZ (cap u v)) - netZ (ekInit n).flow s).toNat
    (ekInit n) i1 i2 i3 i4 (fun v _ _ => i5 v) (le_refl _)
  obtain ⟨f1, f2, f3⟩ := ekLoop_inv cap s t S hV hS1 hS2 hS3 N (ekInit n)
    i1 i2 i3
  have hskewN := ekLoop_skew cap s t N (ekInit n) i4
  have hconsN := ekLoop_conserve cap s t N (ekInit n) (fun v _ _ => i5 v)
  have hconsZ : ∀ v, v ≠ s → v ≠ t →
      netZ (ekLoop cap s t N (ekInit n)).flow v = 0 := fun v hvs hvt =>
    netZ_zero_of_conserve _ f1 hskewN v (hconsN v hvs hvt)
  refine ⟨N, hN, ?_, netZ (ekLoop cap s t N (ekInit n)).flow s, f3, ?_, ?_⟩
  · intro m hm
    obtain ⟨hflow, hmf⟩ := ekLoop_stable_from cap s t N (ekInit n) m hm hN
    show ((ekLoop cap s t m (ekInit n)).mf, (ekLoop cap s t m (ekInit n)).flow)
      = ((ekLoop cap s t N (ekInit n)).mf, (ekLoop cap s t N (ekInit n)).flow)
    rw [hflow, hmf]
  · -- membership: the residual cut of the terminated state attains the value
    obtain ⟨V, hsV, htV, hsat⟩ := terminal_saturated cap
      (ekLoop cap s t N (ekInit n)).flow s t hst
      (ekLoop cap s t N (ekInit n)).par hN hV f1 f2
    refine ⟨V, hsV, htV, ?_⟩
    have hcc : cutCap cap V
        = ((∑ u ∈ V, ∑ v ∈ Vᶜ,
            toZ ((ekLoop cap s t N (ekInit n)).flow u v) : ℤ) : WithTop ℤ) := by
      rw [cutCap, WithTop.coe_sum]
      refine Finset.sum_congr rfl fun u hu => ?_
      rw [WithTop.coe_sum]
      refine Finset.sum_congr rfl fun v hv => ?_
      obtain ⟨z, hz, hfz⟩ := hsat u hu v (by simpa using hv)
      rw [hz, hfz]
      rfl
    rw [hcc, ← cut_value _ s t (toZ_skew _ f1 hskewN) hconsZ V hsV htV]
  · intro c hc
    obtain ⟨R, hsR, htR, hcR⟩ := hc
    rw [← hcR]
    exact value_le_cutCap cap _ s t hV f1 f2 hskewN hconsZ R hsR htR

theorem vmin_comm_of_not_nan {a b : Val} (ha : a ≠ Val.nan)
    (hb : b ≠ Val.nan) : vmin a b = vmin b a := by
  cases a <;> cases b <;> simp_all [vmin, vlt] <;> split <;> split <;>
    simp_all <;> omega

theorem vlt_trans_pos {a b : Val} (ha : a ≠ Val.nan) (h : vlt b a = true)
    (hb : vpos b = true) : vpos a = true := by
  cases a <;> cases b <;> simp_all [vpos, vlt] <;> omega

theorem vpos_of_not_lt {a b : Val} (hb : b ≠ Val.nan) (h : vlt b a = false)
    (hav : vpos a = true) : vpos b = true := by
  cases a <;> cases b <;> simp_all [vpos, vlt] <;> omega

theorem vpos_vmin_iff {a b : Val} (ha : a ≠ Val.nan) (hb : b ≠ Val.nan) :
    vpos (vmin a b) = true ↔ (vpos a = true ∧ vpos b = true) := by
  unfold vmin
  by_cases hlt : vlt b a = true
  · simp only [hlt, if_true]
    exact ⟨fun h => ⟨vlt_trans_pos ha hlt h, h⟩, fun h => h.2⟩
  · simp only [Bool.not_eq_true] at hlt
    simp only [hlt, Bool.false_eq_true, if_false]
    exact ⟨fun h => ⟨h, vpos_of_not_lt hb hlt h⟩, fun h => h.1⟩

theorem tableEntry_eq_specAttr {n : ℕ} (flow : Mat n)
    (hnan : ∀ i j, flow i j ≠ Val.nan) (warehouses : List (Fin n))
    (term store : Fin n) :
    tableEntry flow warehouses term store
      = specAttr flow warehouses term store := by
  rw [tableEntry, specAttr]
  have hstep : ∀ (acc : Val) (w : Fin n),
      (if vpos (flow w store) = true ∧ vpos (flow term w) = true then
        vadd acc (vmin (flow w store) (flow term w))
      else acc)
      = (if vpos (vmin (flow term w) (flow w store)) = true then
          vadd acc (vmin (flow term w) (flow w store))
        else acc) := by
    intro acc w
    rw [vmin_comm_of_not_nan (hnan term w) (hnan w store)]
    by_cases h : vpos (vmin (flow w store) (flow term w)) = true
    · rw [if_pos ((vpos_vmin_iff (hnan w store) (hnan term w)).mp h),
        if_pos h]
    · rw [if_neg fun hcon =>
        h ((vpos_vmin_iff (hnan w store) (hnan term w)).mpr hcon),
        if_neg h]
  apply List.foldl_ext
  intro acc w _
  exact hstep acc w

/-- The decomposer of task_1.py agrees with the specification's description
whenever the flow matrix contains no `nan` entries (in particular for every
flow matrix of signed numbers, as the spec's data model requires). -/
theorem print_flow_table_eq_specTable {n : ℕ} (flow : Mat n)
    (hnan : ∀ i j, flow i j ≠ Val.nan)
    (terminals stores warehouses : List (Fin n)) :
    print_flow_table flow terminals stores warehouses
      = specTable flow terminals stores warehouses := by
  rw [print_flow_table, specTable]
  refine List.flatMap_congr fun term _ => ?_
  refine List.filterMap_congr fun store _ => ?_
  rw [tableEntry_eq_specAttr flow hnan warehouses term store]

/-! ### Concrete networks used by witnesses and counterexamples -/

/-! ### The claims -/

/-- Claim C1: for every well-formed capacity matrix admitting a cut between
source and sink whose crossing capacities are all finite (the reading of
"source-bounding and sink-bounding edges are finite"), the Edmonds-Karp
engine stabilises after finitely many iterations and its `max_flow` is an
integer equal to the minimum, over all cuts separating the source index from
the sink index, of the total capacity crossing the cut. -/
theorem claim_C1 {n : ℕ} (cap : Mat n) (s t : Fin n) (hV : ValidCap cap)
    (hcut : ∃ S : Finset (Fin n), s ∈ S ∧ t ∉ S ∧
      ∀ u ∈ S, ∀ v, v ∉ S → cap u v ≠ Val.inf) :
    ∃ N, (∀ m, N ≤ m → edmonds_karp m cap s t = edmonds_karp N cap s t) ∧
      ∃ M : ℤ, (edmonds_karp N cap s t).1 = Val.num M ∧
        IsLeast {c : WithTop ℤ | ∃ R : Finset (Fin n),
          s ∈ R ∧ t ∉ R ∧ cutCap cap R = c} (M : WithTop ℤ) := by
  obtain ⟨S, hS1, hS2, hS3⟩ := hcut
  obtain ⟨N, _, hstable, M, hM, hleast⟩ := ek_main cap s t hV S hS1 hS2 hS3
  exact ⟨N, hstable, M, hM, hleast⟩

theorem claim_C1_witness :
    (ValidCap capW ∧ ∃ S : Finset (Fin 3), (0 : Fin 3) ∈ S ∧
      (2 : Fin 3) ∉ S ∧ ∀ u ∈ S, ∀ v, v ∉ S → capW u v ≠ Val.inf) ∧
    (∃ N, (∀ m, N ≤ m → edmonds_karp m capW 0 2 = edmonds_karp N capW 0 2) ∧
      ∃ M : ℤ, (edmonds_karp N capW 0 2).1 = Val.num M ∧
        IsLeast {c : WithTop ℤ | ∃ R : Finset (Fin 3),
          (0 : Fin 3) ∈ R ∧ (2 : Fin 3) ∉ R ∧ cutCap capW R = c}
          (M : WithTop ℤ)) :=
  ⟨⟨by decide, by decide⟩, claim_C1 capW 0 2 (by decide) (by decide)⟩

/-- Claim C2: for every capacity matrix in which every source-to-sink path is
bounded by a finite edge (equivalently, some cut separating them has only
finite crossing capacities), the outer augmenting-path loop reaches, after
finitely many iterations, a state in which `bfs` finds no augmenting path,
so the engine terminates. -/
theorem claim_C2 {n : ℕ} (cap : Mat n) (s t : Fin n) (hV : ValidCap cap)
    (hcut : ∃ S : Finset (Fin n), s ∈ S ∧ t ∉ S ∧
      ∀ u ∈ S, ∀ v, v ∉ S → cap u v ≠ Val.inf) :
    ∃ N, (bfs cap (ekLoop cap s t N (ekInit n)).flow s t
      (ekLoop cap s t N (ekInit n)).par).1 = false := by
  obtain ⟨S, hS1, hS2, hS3⟩ := hcut
  obtain ⟨N, hN, _, _⟩ := ek_main cap s t hV S hS1 hS2 hS3
  exact ⟨N, hN⟩

theorem claim_C2_witness :
    (ValidCap capW ∧ ∃ S : Finset (Fin 3), (0 : Fin 3) ∈ S ∧
      (2 : Fin 3) ∉ S ∧ ∀ u ∈ S, ∀ v, v ∉ S → capW u v ≠ Val.inf) ∧
    (∃ N, (bfs capW (ekLoop capW 0 2 N (ekInit 3)).flow 0 2
      (ekLoop capW 0 2 N (ekInit 3)).par).1 = false) :=
  ⟨⟨by decide, by decide⟩, claim_C2 capW 0 2 (by decide) (by decide)⟩

/-- Claim C3: for every capacity matrix, endpoints and iteration budget, and
every node other than the source and sink, the sum of flow into that node
equals the sum of flow out of it in the engine's flow matrix. -/
theorem claim_C3 {n : ℕ} (cap : Mat n) (s t : Fin n) (fuel : ℕ) (v : Fin n)
    (hvs : v ≠ s) (hvt : v ≠ t) :
    (∑ j, (edmonds_karp fuel cap s t).2 j v)
      = (∑ j, (edmonds_karp fuel cap s t).2 v j) := by
  have i5 : ∀ v2 : Fin n,
      (∑ j, (ekInit n).flow v2 j) = (∑ j, (ekInit n).flow j v2) :=
    fun _ => rfl
  exact (ekLoop_conserve cap s t fuel (ekInit n) (fun v2 _ _ => i5 v2)
    v hvs hvt).symm

theorem claim_C3_witness :
    ((1 : Fin 3) ≠ 0 ∧ (1 : Fin 3) ≠ 2) ∧
    (∑ j, (edmonds_karp 5 capW 0 2).2 j 1)
      = (∑ j, (edmonds_karp 5 capW 0 2).2 1 j) := by
  exact ⟨⟨by decide, by decide⟩, claim_C3 capW 0 2 5 1 (by decide) (by decide)⟩

/-- Claim C4: the flow matrix maintained by the Edmonds-Karp engine is skew
symmetric — `flow[i][j]` is the negation of `flow[j][i]` — after every
iteration of the outer loop (every `fuel`), for every capacity matrix. -/
theorem claim_C4 {n : ℕ} (cap : Mat n) (s t : Fin n) (fuel : ℕ)
    (i j : Fin n) :
    (edmonds_karp fuel cap s t).2 i j
      = vneg ((edmonds_karp fuel cap s t).2 j i) := by
  have i4 : ∀ a b, (ekInit n).flow a b = vneg ((ekInit n).flow b a) := by
    intro a b
    show Val.num 0 = vneg (Val.num 0)
    simp [vneg]
  exact ekLoop_skew cap s t fuel (ekInit n) i4 i j

/-- Claim C5 (counterexample): on the six-node network `capG6`, after two
augmentations the edge `(2, 1)` has finite capacity `5` yet the Python test
`flow[2][1] <= capacity[2][1]` is false — the entry has become `nan` after
two infinite bottlenecks crossed it in both directions. -/
theorem claim_C5_counterexample :
    capG6 2 1 = Val.num 5 ∧
    (ekLoop capG6 0 3 2 (ekInit 6)).flow 2 1 = Val.nan ∧
    vle ((ekLoop capG6 0 3 2 (ekInit 6)).flow 2 1) (capG6 2 1) = false := by
  refine ⟨by decide, by decide, by decide⟩

/-- Claim C5 (amended): under the finite-cut hypothesis (true of the repo's
network, whose infinite edges are only the virtual-terminal ones), at every
intermediate state and in the final result the flow respects every finite
capacity: `flow[i][j] <= capacity[i][j]` whenever `capacity[i][j]` is
finite, and `flow[i][j] >= -capacity[j][i]` whenever `capacity[j][i]` is
finite. -/
theorem claim_C5 {n : ℕ} (cap : Mat n) (s t : Fin n) (hV : ValidCap cap)
    (hcut : ∃ S : Finset (Fin n), s ∈ S ∧ t ∉ S ∧
      ∀ u ∈ S, ∀ v, v ∉ S → cap u v ≠ Val.inf) (fuel : ℕ) (i j : Fin n) :
    (∀ z : ℤ, cap i j = Val.num z →
      vle ((ekLoop cap s t fuel (ekInit n)).flow i j) (cap i j) = true) ∧
    (∀ z : ℤ, cap j i = Val.num z →
      vle (vneg (cap j i)) ((ekLoop cap s t fuel (ekInit n)).flow i j)
        = true) := by
  obtain ⟨S, hS1, hS2, hS3⟩ := hcut
  obtain ⟨i1, i2, i3, i4, i5⟩ := ekInit_facts cap s hV
  obtain ⟨f1, f2, _⟩ := ekLoop_inv cap s t S hV hS1 hS2 hS3 fuel (ekInit n)
    i1 i2 i3
  have hskew := ekLoop_skew cap s t fuel (ekInit n) i4
  constructor
  · intro z hz
    obtain ⟨fz, hfz⟩ := isNum_iff.mp (f1 i j)
    have := f2 i j z hz
    rw [hfz] at this ⊢
    rw [hz]
    simp only [toZ] at this
    simp [vle, this]
  · intro z hz
    obtain ⟨fz, hfz⟩ := isNum_iff.mp (f1 i j)
    obtain ⟨fz2, hfz2⟩ := isNum_iff.mp (f1 j i)
    have hb := f2 j i z hz
    rw [hfz2] at hb
    have hsk := hskew i j
    rw [hfz, hfz2] at hsk
    simp only [vneg] at hsk
    injection hsk with hsk2
    rw [hz, hfz]
    simp only [toZ] at hb
    simp only [vneg, vle, decide_eq_true_eq]
    omega

theorem claim_C5_witness :
    (ValidCap capW ∧ ∃ S : Finset (Fin 3), (0 : Fin 3) ∈ S ∧
      (2 : Fin 3) ∉ S ∧ ∀ u ∈ S, ∀ v, v ∉ S → capW u v ≠ Val.inf) ∧
    ((∀ z : ℤ, capW 0 1 = Val.num z →
      vle ((ekLoop capW 0 2 5 (ekInit 3)).flow 0 1) (capW 0 1) = true) ∧
     (∀ z : ℤ, capW 1 0 = Val.num z →
      vle (vneg (capW 1 0)) ((ekLoop capW 0 2 5 (ekInit 3)).flow 0 1)
        = true)) :=
  ⟨⟨by decide, by decide⟩, claim_C5 capW 0 2 (by decide) (by decide) 5 0 1⟩

/-- Claim C7: `build_capacity_matrix` silently accepts a zero-capacity edge,
although its own docstring promises a `ValueError` for zero or negative
capacities: the resulting matrix is identical to the one built from a graph
with no edge at all. -/
theorem claim_C7 :
    build_capacity_matrix [((0 : Fin 2), (1 : Fin 2), Val.num 0)] id
      = build_capacity_matrix ([] : List (Fin 2 × Fin 2 × Val)) id := by
  decide

/-- Claim C8 (counterexample): calling the engine with equal source and sink
indices does not fail; it runs BFS (which cannot succeed, since the source
is pre-visited) and returns `(0, zero-flow)` normally. -/
theorem claim_C8_counterexample :
    edmonds_karp 3 (fun _ _ => Val.num 0 : Mat 1) 0 0
      = (Val.num 0, fun _ _ => Val.num 0) := by
  decide

/-- Claim C8 (amended): the engine performs no endpoint validation; with
`source == sink` every `bfs` call reports no path, so for every capacity
matrix and iteration budget the engine returns `max_flow = 0` and the
all-zero flow matrix (no matrix is mutated, and no error is raised). -/
theorem claim_C8 {n : ℕ} (fuel : ℕ) (cap : Mat n) (s : Fin n) :
    edmonds_karp fuel cap s s = (Val.num 0, fun _ _ => Val.num 0) := by
  obtain ⟨hflow, hmf⟩ := ekLoop_self cap s fuel (ekInit n)
  show ((ekLoop cap s s fuel (ekInit n)).mf,
    (ekLoop cap s s fuel (ekInit n)).flow) = _
  rw [hflow, hmf]
  rfl

/-- Claim C10 (counterexample): on `capB`, whose only finite entries are
integers (zeros), the engine pushes an infinite bottleneck: `max_flow`
becomes `inf` and the flow matrix contains non-integer entries. -/
theorem claim_C10_counterexample :
    (∀ i j, capB i j = Val.inf ∨ isNum (capB i j) = true) ∧
    isNum ((edmonds_karp 2 capB 0 1).1) = false ∧
    isNum ((edmonds_karp 2 capB 0 1).2 0 1) = false := by
  refine ⟨by decide, by decide, by decide⟩

/-- Claim C10 (amended): under the finite-cut hypothesis the engine's
`max_flow` and every entry of its flow matrix are integers, at every
iteration budget. -/
theorem claim_C10 {n : ℕ} (cap : Mat n) (s t : Fin n) (hV : ValidCap cap)
    (hcut : ∃ S : Finset (Fin n), s ∈ S ∧ t ∉ S ∧
      ∀ u ∈ S, ∀ v, v ∉ S → cap u v ≠ Val.inf) (fuel : ℕ) :
    isNum ((edmonds_karp fuel cap s t).1) = true ∧
    ∀ i j, isNum ((edmonds_karp fuel cap s t).2 i j) = true := by
  obtain ⟨S, hS1, hS2, hS3⟩ := hcut
  obtain ⟨i1, i2, i3, _, _⟩ := ekInit_facts cap s hV
  obtain ⟨f1, _, f3⟩ := ekLoop_inv cap s t S hV hS1 hS2 hS3 fuel (ekInit n)
    i1 i2 i3
  refine ⟨?_, f1⟩
  show isNum (ekLoop cap s t fuel (ekInit n)).mf = true
  rw [f3]
  rfl

theorem claim_C10_witness :
    (ValidCap capW ∧ ∃ S : Finset (Fin 3), (0 : Fin 3) ∈ S ∧
      (2 : Fin 3) ∉ S ∧ ∀ u ∈ S, ∀ v, v ∉ S → capW u v ≠ Val.inf) ∧
    (isNum ((edmonds_karp 5 capW 0 2).1) = true ∧
     ∀ i j, isNum ((edmonds_karp 5 capW 0 2).2 i j) = true) :=
  ⟨⟨by decide, by decide⟩, claim_C10 capW 0 2 (by decide) (by decide) 5⟩

/-- Claim C9: for every flow matrix of signed numbers (no `nan` entries, as
the spec's data model prescribes) and any node groups, the table printed by
`print_flow_table` is exactly the specification's decomposition: each
(entry, exit) pair is attributed the sum over intermediates of
`min(flow[entry][mid], flow[mid][exit])` restricted to strictly positive
contributions, and exactly the pairs with strictly positive attributed flow
appear. -/
theorem claim_C9 {n : ℕ} (flow : Mat n) (hnan : ∀ i j, flow i j ≠ Val.nan)
    (terminals stores warehouses : List (Fin n)) :
    print_flow_table flow terminals stores warehouses
      = specTable flow terminals stores warehouses :=
  print_flow_table_eq_specTable flow hnan terminals stores warehouses

theorem claim_C9_witness :
    (∀ i j, flowW i j ≠ Val.nan) ∧
    print_flow_table flowW [0] [3] [1, 2] = specTable flowW [0] [3] [1, 2] :=
  ⟨by decide, claim_C9 flowW (by decide) [0] [3] [1, 2]⟩

/-! ### Residual reachability and BFS shortest paths -/

theorem reachN_zero_iff {n : ℕ} (cap flow : Mat n) (s v : Fin n) :
    reachN cap flow s 0 v = true ↔ v = s := by
  simp [reachN]

theorem reachN_succ_iff {n : ℕ} (cap flow : Mat n) (s v : Fin n) (k : ℕ) :
    reachN cap flow s (k + 1) v = true ↔
      ∃ u, reachN cap flow s k u = true ∧ resPos cap flow u v = true := by
  rw [reachN, List.any_eq_true]
  constructor
  · rintro ⟨u, _, hu⟩
    rw [Bool.and_eq_true] at hu
    exact ⟨u, hu.1, hu.2⟩
  · rintro ⟨u, h1, h2⟩
    exact ⟨u, List.mem_finRange u, by rw [Bool.and_eq_true]; exact ⟨h1, h2⟩⟩

/-- A residual chain of length `k + 1` witnesses reachability in `k` steps. -/
theorem chain_reachN {n : ℕ} {cap flow : Mat n}
    {par : Fin n → Option (Fin n)} {s v : Fin n} {l : List (Fin n)}
    (hc : Chain par s v l)
    (hres : ∀ pr ∈ pairs l, resPos cap flow pr.1 pr.2 = true) :
    reachN cap flow s (l.length - 1) v = true := by
  induction hc with
  | base =>
    simp [reachN]
  | step hne hp hc2 ih =>
    rename_i u v2 l2
    have hlen : 1 ≤ l2.length := List.length_pos.mpr hc2.ne_nil
    have hpairs : pairs (l2 ++ [v2]) = pairs l2 ++ [(u, v2)] :=
      pairs_append_last _ _ _ hc2.getLast_eq
    have hres2 : ∀ pr ∈ pairs l2, resPos cap flow pr.1 pr.2 = true := by
      intro pr hpr
      exact hres pr (by rw [hpairs]; simp [hpr])
    have hresu : resPos cap flow u v2 = true :=
      hres (u, v2) (by rw [hpairs]; simp)
    have hlen2 : (l2 ++ [v2]).length - 1 = (l2.length - 1) + 1 := by
      rw [List.length_append, List.length_singleton]
      omega
    rw [hlen2, reachN_succ_iff]
    exact ⟨u, ih hres2, hresu⟩

/-- With a level-graded queue and processed closure, no unvisited node is
reachable within the current frontier level. -/
theorem unvisited_not_reach {n : ℕ} (cap flow : Mat n) (s : Fin n)
    (vis : Fin n → Bool) (q : List (Fin n)) (lvl : Fin n → ℕ) (lv : ℕ)
    (hs : vis s = true)
    (hql : ∀ x ∈ q, lv ≤ lvl x)
    (hD2 : ∀ x, vis x = true → ∀ k, k < lvl x → reachN cap flow s k x = false)
    (hD3 : ∀ x, vis x = false → ∀ k, k < lv → reachN cap flow s k x = false)
    (hD5 : ∀ x, vis x = true → x ∉ q →
      ∀ y, resPos cap flow x y = true → vis y = true) :
    ∀ x, vis x = false → reachN cap flow s lv x = false := by
  intro x hx
  by_contra hcon
  rw [Bool.not_eq_false] at hcon
  cases lv with
  | zero =>
    rw [reachN_zero_iff] at hcon
    rw [hcon, hs] at hx
    cases hx
  | succ m =>
    rw [reachN_succ_iff] at hcon
    obtain ⟨y, hy, hedge⟩ := hcon
    have hyvis : vis y = true := by
      by_cases h : vis y = true
      · exact h
      · have := hD3 y (by simpa using h) m (by omega)
        rw [this] at hy
        cases hy
    have hylvl : lvl y ≤ m := by
      by_contra h
      have := hD2 y hyvis m (by omega)
      rw [this] at hy
      cases hy
    have hynq : y ∉ q := fun hmem => by
      have := hql y hmem
      omega
    have := hD5 y hyvis hynq x hedge
    rw [this] at hx
    cases hx

/-- In an unsuccessful neighbour scan the queue grows only on the right, by
exactly the freshly visited nodes. -/
theorem bfsInner_queue {n : ℕ} (cap flow : Mat n) (t u : Fin n) :
    ∀ (vs : List (Fin n)) (vis : Fin n → Bool) (par : Fin n → Option (Fin n))
      (q : List (Fin n)) (vis2 : Fin n → Bool)
      (par2 : Fin n → Option (Fin n)) (q2 : List (Fin n)),
      bfsInner cap flow t u vs vis par q = (vis2, par2, q2, false) →
      ∃ fresh : List (Fin n), q2 = q ++ fresh ∧
        ∀ x ∈ fresh, vis x = false ∧ vis2 x = true := by
  intro vs
  induction vs with
  | nil =>
    intro vis par q vis2 par2 q2 heq
    rw [bfsInner] at heq
    injection heq with h1 h2
    injection h2 with h2 h3
    injection h3 with h3 _
    subst h1; subst h3
    exact ⟨[], by simp, by simp⟩
  | cons v vs ih =>
    intro vis par q vis2 par2 q2 heq
    rw [bfsInner] at heq
    by_cases hcond : vis v = false ∧ resPos cap flow u v = true
    · rw [if_pos hcond] at heq
      by_cases hvt : v = t
      · rw [if_pos hvt] at heq
        injection heq with _ h2
        injection h2 with _ h3
        injection h3 with _ h4
        cases h4
      · rw [if_neg hvt] at heq
        obtain ⟨s1, _, _, _, _, _, _⟩ :=
          bfsInner_spec cap flow t u vs (Function.update vis v true)
            (Function.update par v (some u)) (q ++ [v]) vis2 par2 q2 false heq
        obtain ⟨fresh, hq2, hfresh⟩ := ih (Function.update vis v true)
          (Function.update par v (some u)) (q ++ [v]) vis2 par2 q2 heq
        refine ⟨v :: fresh, by rw [hq2]; simp, ?_⟩
        intro x hx
        rcases List.mem_cons.mp hx with hx2 | hx2
        · subst hx2
          exact ⟨hcond.1, s1 x (by rw [Function.update_apply]; simp)⟩
        · obtain ⟨hxf, hxv⟩ := hfresh x hx2
          rw [Function.update_apply] at hxf
          by_cases hxveq : x = v
          · rw [if_pos hxveq] at hxf; cases hxf
          · rw [if_neg hxveq] at hxf
            exact ⟨hxf, hxv⟩
    · rw [if_neg hcond] at heq
      exact ih vis par q vis2 par2 q2 heq

/-- Master level-graded specification of the `while queue:` loop of `bfs`:
with the queue split into a level-`lv` prefix and a level-`lv+1` suffix and
every visited node carrying its true BFS distance, a `True` answer yields a
parent chain that is a residual path from source to sink of *minimal* edge
count. -/
theorem bfsLoop_dist {n : ℕ} (cap flow : Mat n) (s t : Fin n) (hst : s ≠ t) :
    ∀ (fuel : ℕ) (qa qb : List (Fin n)) (vis : Fin n → Bool)
      (par : Fin n → Option (Fin n)) (lvl : Fin n → ℕ) (lv : ℕ),
      (qa = [] → qb = []) →
      (qa ++ qb).length + unvis vis ≤ fuel →
      vis s = true →
      (∀ x ∈ qa ++ qb, vis x = true) →
      vis t = false →
      (∀ x ∈ qa, lvl x = lv) →
      (∀ x ∈ qb, lvl x = lv + 1) →
      (∀ x, vis x = true → lvl x ≤ lv + 1) →
      (∀ x, vis x = true → reachN cap flow s (lvl x) x = true) →
      (∀ x, vis x = true → ∀ k, k < lvl x →
        reachN cap flow s k x = false) →
      (∀ x, vis x = false → ∀ k, k < lv →
        reachN cap flow s k x = false) →
      (∀ x, vis x = true → x ∉ qa ++ qb →
        ∀ y, resPos cap flow x y = true → vis y = true) →
      (∀ x, vis x = true → ∃ l, Chain par s x l ∧ l.Nodup ∧
        (∀ y ∈ l, vis y = true) ∧
        (∀ pr ∈ pairs l, resPos cap flow pr.1 pr.2 = true) ∧
        l.length = lvl x + 1) →
      ((bfsLoop cap flow t fuel (qa ++ qb) vis par).1 = true →
        ∃ l, Chain (bfsLoop cap flow t fuel (qa ++ qb) vis par).2 s t l ∧
          l.Nodup ∧ (∀ pr ∈ pairs l, resPos cap flow pr.1 pr.2 = true) ∧
          IsLeast {k | reachN cap flow s k t = true} (l.length - 1)) := by
  intro fuel
  induction fuel with
  | zero =>
    intro qa qb vis par lvl lv _ _ _ _ _ _ _ _ _ _ _ _ _ h
    exfalso
    cases hq : qa ++ qb with
    | nil =>
      rw [hq] at h
      rw [show bfsLoop cap flow t 0 ([] : List (Fin n)) vis par
        = (false, par) from rfl] at h
      cases h
    | cons a rest =>
      rw [hq] at h
      rw [show bfsLoop cap flow t 0 (a :: rest) vis par
        = (false, par) from rfl] at h
      cases h
  | succ k ihf =>
    intro qa qb vis par lvl lv hqa0 hfuel hs hq ht hqa hqb hD4 hD1 hD2 hD3
      hD5 hD7
    cases qa with
    | nil =>
      intro h
      exfalso
      rw [hqa0 rfl] at h
      rw [show bfsLoop cap flow t (k + 1) (([] : List (Fin n)) ++ []) vis par
        = (false, par) from rfl] at h
      cases h
    | cons u qa1 =>
      simp only [List.cons_append] at hfuel hq hD5 ⊢
      have hu : vis u = true := hq u (by simp)
      have hlvlu : lvl u = lv := hqa u (by simp)
      have hnr : ∀ x, vis x = false → reachN cap flow s lv x = false := by
        refine unvisited_not_reach cap flow s vis (u :: (qa1 ++ qb)) lvl lv
          hs ?_ hD2 hD3 hD5
        intro x hx
        rcases List.mem_cons.mp hx with hx2 | hx2
        · rw [hx2, hlvlu]
        · rcases List.mem_append.mp hx2 with hx3 | hx3
          · rw [hqa x (by simp [hx3])]
          · rw [hqb x hx3]
            omega
      rcases hInner : bfsInner cap flow t u (List.finRange n) vis par
        (qa1 ++ qb) with ⟨vis2, par2, q2, fd⟩
      obtain ⟨s1, s2, s3, s4, s5, s6, s7⟩ :=
        bfsInner_spec cap flow t u (List.finRange n) vis par (qa1 ++ qb)
          vis2 par2 q2 fd hInner
      cases fd with
      | true =>
        obtain ⟨p1, p2, p3⟩ := s7 rfl
        have hres : bfsLoop cap flow t (k + 1) (u :: (qa1 ++ qb)) vis par
            = (true, par2) := by
          rw [bfsLoop, hInner]
        rw [hres]
        intro _
        obtain ⟨l, hcl, hnd, hlv, hlres, hlen⟩ := hD7 u hu
        have hagree : ∀ x ∈ l, par2 x = par x := fun x hx => s2 x (hlv x hx)
        have hcl2 : Chain par2 s u l := hcl.congr hagree
        have htnotl : t ∉ l := fun hmem => by rw [hlv t hmem] at ht; cases ht
        have hndl : (l ++ [t]).Nodup := by
          rw [List.nodup_append]
          exact ⟨hnd, by simp, fun x hx hx2 => by
            simp at hx2
            rw [hx2] at hx
            exact htnotl hx⟩
        have hresl : ∀ pr ∈ pairs (l ++ [t]),
            resPos cap flow pr.1 pr.2 = true := by
          intro pr hpr
          rw [pairs_append_last l u t hcl.getLast_eq] at hpr
          rcases List.mem_append.mp hpr with hpr | hpr
          · exact hlres pr hpr
          · simp at hpr
            rw [hpr]
            exact p3
        have hchainlt : Chain par2 s t (l ++ [t]) :=
          Chain.step (Ne.symm hst) p1 hcl2
        refine ⟨l ++ [t], hchainlt, hndl, hresl, ?_, ?_⟩
        · show reachN cap flow s ((l ++ [t]).length - 1) t = true
          exact chain_reachN hchainlt hresl
        · intro m hm
          have hlenl : (l ++ [t]).length - 1 = lv + 1 := by
            rw [List.length_append, List.length_singleton, hlen, hlvlu]
            omega
          rw [hlenl]
          by_contra hcon
          push_neg at hcon
          have hm2 : reachN cap flow s m t = true := hm
          have : reachN cap flow s m t = false := by
            by_cases hmlv : m < lv
            · exact hD3 t ht m hmlv
            · have : m = lv := by omega
              rw [this]
              exact hnr t ht
          rw [this] at hm2
          cases hm2
      | false =>
        obtain ⟨t1, t2, t3, t4⟩ := s4 rfl
        obtain ⟨fresh, hq2, hfresh⟩ :=
          bfsInner_queue cap flow t u (List.finRange n) vis par (qa1 ++ qb)
            vis2 par2 q2 hInner
        have hres : bfsLoop cap flow t (k + 1) (u :: (qa1 ++ qb)) vis par
            = bfsLoop cap flow t k q2 vis2 par2 := by
          rw [bfsLoop, hInner]
        rw [hres]
        -- the new ghost level assignment
        set lvl2 : Fin n → ℕ := fun x => if vis x = true then lvl x
          else lv + 1 with hlvl2
        have hlvl2old : ∀ x, vis x = true → lvl2 x = lvl x := by
          intro x hx
          rw [hlvl2]
          simp [hx]
        have hlvl2fresh : ∀ x, vis x = false → lvl2 x = lv + 1 := by
          intro x hx
          rw [hlvl2]
          simp [hx]
        have hvis2f : ∀ x, vis2 x = false → vis x = false := by
          intro x hx
          by_cases h : vis x = true
          · rw [s1 x h] at hx; cases hx
          · simpa using h
        -- invariants of the next state
        have hs2 : vis2 s = true := s1 s hs
        have ht2 : vis2 t = false := by rw [s5 rfl]; exact ht
        have hD1n : ∀ x, vis2 x = true →
            reachN cap flow s (lvl2 x) x = true := by
          intro x hx
          rcases s3 x hx with hx2 | ⟨_, hxf, hxres, _⟩
          · rw [hlvl2old x hx2]
            exact hD1 x hx2
          · rw [hlvl2fresh x hxf, reachN_succ_iff]
            refine ⟨u, ?_, hxres⟩
            have := hD1 u hu
            rw [hlvlu] at this
            exact this
        have hD2n : ∀ x, vis2 x = true → ∀ m, m < lvl2 x →
            reachN cap flow s m x = false := by
          intro x hx m hm
          rcases s3 x hx with hx2 | ⟨_, hxf, _, _⟩
          · rw [hlvl2old x hx2] at hm
            exact hD2 x hx2 m hm
          · rw [hlvl2fresh x hxf] at hm
            by_cases hmlv : m < lv
            · exact hD3 x hxf m hmlv
            · have : m = lv := by omega
              rw [this]
              exact hnr x hxf
        have hD7n : ∀ x, vis2 x = true → ∃ l, Chain par2 s x l ∧ l.Nodup ∧
            (∀ y ∈ l, vis2 y = true) ∧
            (∀ pr ∈ pairs l, resPos cap flow pr.1 pr.2 = true) ∧
            l.length = lvl2 x + 1 := by
          intro x hx
          rcases s3 x hx with hx2 | ⟨_, hxf, hxres, hxpar⟩
          · obtain ⟨l, hcl, hnd, hlv, hlres, hlen⟩ := hD7 x hx2
            have hagree : ∀ y ∈ l, par2 y = par y := fun y hy =>
              s2 y (hlv y hy)
            exact ⟨l, hcl.congr hagree, hnd, fun y hy => s1 y (hlv y hy),
              hlres, by rw [hlvl2old x hx2]; exact hlen⟩
          · obtain ⟨l, hcl, hnd, hlv, hlres, hlen⟩ := hD7 u hu
            have hagree : ∀ y ∈ l, par2 y = par y := fun y hy =>
              s2 y (hlv y hy)
            have hcl2 : Chain par2 s u l := hcl.congr hagree
            have hxs : x ≠ s := fun he => by rw [he, hs] at hxf; cases hxf
            have hxnotl : x ∉ l := fun hmem => by
              rw [hlv x hmem] at hxf; cases hxf
            refine ⟨l ++ [x], Chain.step hxs hxpar hcl2, ?_, ?_, ?_, ?_⟩
            · rw [List.nodup_append]
              exact ⟨hnd, by simp, fun y hy hy2 => by
                simp at hy2
                rw [hy2] at hy
                exact hxnotl hy⟩
            · intro y hy
              rcases List.mem_append.mp hy with hy | hy
              · exact s1 y (hlv y hy)
              · simp at hy
                rw [hy]
                exact hx
            · intro pr hpr
              rw [pairs_append_last l u x hcl.getLast_eq] at hpr
              rcases List.mem_append.mp hpr with hpr | hpr
              · exact hlres pr hpr
              · simp at hpr
                rw [hpr]
                exact hxres
            · rw [List.length_append, List.length_singleton, hlen, hlvlu,
                hlvl2fresh x hxf]
        have hclosed2 : ∀ x, vis2 x = true → x ∈ q2 ∨
            (∀ y, resPos cap flow x y = true → vis2 y = true) := by
          intro x hx
          rcases s3 x hx with hx2 | ⟨_, hxf, _, _⟩
          · by_cases hxq : x ∈ u :: (qa1 ++ qb)
            · rcases List.mem_cons.mp hxq with hx3 | hx3
              · refine Or.inr ?_
                rw [hx3]
                intro y hy
                exact s6 rfl y (List.mem_finRange y) hy
              · exact Or.inl (t1 x hx3)
            · refine Or.inr fun y hy => s1 y (hD5 x hx2 hxq y hy)
          · refine Or.inl ?_
            rcases t2 x hx with hx3 | hx3
            · rw [hx3] at hxf; cases hxf
            · exact hx3
        have hfuel2 : q2.length + unvis vis2 ≤ k := by
          rw [List.length_cons] at hfuel
          omega
        have hqvis2 : ∀ x ∈ q2, vis2 x = true := by
          intro x hx
          rw [hq2] at hx
          rcases List.mem_append.mp hx with hx2 | hx2
          · exact s1 x (hq x (by simp [hx2]))
          · exact (hfresh x hx2).2
        have hfreshlvl : ∀ x ∈ fresh, lvl2 x = lv + 1 := fun x hx =>
          hlvl2fresh x (hfresh x hx).1
        by_cases hqa1 : qa1 = []
        · -- all level-`lv` nodes are processed: advance the base level
          subst hqa1
          have hq2eq : q2 = qb ++ fresh := by
            rw [hq2]
            simp
          have hih := ihf (qb ++ fresh) [] vis2 par2 lvl2 (lv + 1)
            (fun _ => rfl)
            (by rw [List.append_nil, ← hq2eq]; exact hfuel2)
            hs2
            (by
              rw [List.append_nil, ← hq2eq]
              exact hqvis2)
            ht2
            (by
              intro x hx
              rcases List.mem_append.mp hx with hx2 | hx2
              · rw [hlvl2old x (hq x (by simp [hx2]))]
                exact hqb x hx2
              · exact hfreshlvl x hx2)
            (by intro x hx; simp at hx)
            (by
              intro x hx
              rcases s3 x hx with hx2 | ⟨_, hxf, _, _⟩
              · rw [hlvl2old x hx2]
                have := hD4 x hx2
                omega
              · rw [hlvl2fresh x hxf]
                omega)
            hD1n hD2n
            (by
              intro x hx m hm
              have hxf := hvis2f x hx
              by_cases hmlv : m < lv
              · exact hD3 x hxf m hmlv
              · have : m = lv := by omega
                rw [this]
                exact hnr x hxf)
            (by
              intro x hx hnotin y hy
              rcases hclosed2 x hx with hmem | hcl
              · exfalso
                apply hnotin
                rw [List.append_nil, ← hq2eq]
                exact hmem
              · exact hcl y hy)
            hD7n
          rw [List.append_nil, ← hq2eq] at hih
          exact hih
        · -- still processing level `lv`
          have hq2eq : q2 = qa1 ++ (qb ++ fresh) := by
            rw [hq2, List.append_assoc]
          have hih := ihf qa1 (qb ++ fresh) vis2 par2 lvl2 lv
            (fun h => absurd h hqa1)
            (by rw [← hq2eq]; exact hfuel2)
            hs2
            (by rw [← hq2eq]; exact hqvis2)
            ht2
            (by
              intro x hx
              rw [hlvl2old x (hq x (by simp [hx]))]
              exact hqa x (by simp [hx]))
            (by
              intro x hx
              rcases List.mem_append.mp hx with hx2 | hx2
              · rw [hlvl2old x (hq x (by simp [hx2]))]
                exact hqb x hx2
              · exact hfreshlvl x hx2)
            (by
              intro x hx
              rcases s3 x hx with hx2 | ⟨_, hxf, _, _⟩
              · rw [hlvl2old x hx2]
                exact hD4 x hx2
              · rw [hlvl2fresh x hxf])
            hD1n hD2n
            (by
              intro x hx m hm
              exact hD3 x (hvis2f x hx) m hm)
            (by
              intro x hx hnotin y hy
              rcases hclosed2 x hx with hmem | hcl
              · exfalso
                apply hnotin
                rw [← hq2eq]
                exact hmem
              · exact hcl y hy)
            hD7n
          rw [← hq2eq] at hih
          exact hih

/-- Residual reachability never escapes a residual-closed set containing the
source. -/
theorem reachN_mem_closed {n : ℕ} (cap flow : Mat n) (s : Fin n)
    (V : Finset (Fin n)) (hsV : s ∈ V)
    (hcl : ∀ x ∈ V, ∀ y, resPos cap flow x y = true → y ∈ V) :
    ∀ (k : ℕ) (x : Fin n), reachN cap flow s k x = true → x ∈ V := by
  intro k
  induction k with
  | zero =>
    intro x hx
    rw [reachN_zero_iff] at hx
    rw [hx]
    exact hsV
  | succ m ih =>
    intro x hx
    rw [reachN_succ_iff] at hx
    obtain ⟨u, hu, hedge⟩ := hx
    exact hcl u (ih u hu) x hedge

/-- Top-level distance specification of `bfs`: on success the returned
parent array traces a residual path of minimal edge count. -/
theorem bfs_dist {n : ℕ} (cap flow : Mat n) (s t : Fin n) (hst : s ≠ t)
    (par : Fin n → Option (Fin n)) :
    (bfs cap flow s t par).1 = true →
      ∃ l, Chain (bfs cap flow s t par).2 s t l ∧ l.Nodup ∧
        (∀ pr ∈ pairs l, resPos cap flow pr.1 pr.2 = true) ∧
        IsLeast {k | reachN cap flow s k t = true} (l.length - 1) := by
  have hvis : ∀ x, Function.update (fun _ : Fin n => false) s true x = true →
      x = s := by
    intro x hx
    rw [Function.update_apply] at hx
    by_cases hxs : x = s
    · exact hxs
    · rw [if_neg hxs] at hx; cases hx
  have h := bfsLoop_dist cap flow s t hst n [s] []
    (Function.update (fun _ : Fin n => false) s true) par
    (fun _ => 0) 0
    (by intro h; cases h)
    (by
      have := unvis_init s
      simp only [List.append_nil, List.length_singleton]
      omega)
    (by rw [Function.update_apply]; simp)
    (by
      intro x hx
      simp at hx
      rw [hx, Function.update_apply]
      simp)
    (by rw [Function.update_apply, if_neg (Ne.symm hst)])
    (fun x _ => rfl)
    (by intro x hx; simp at hx)
    (fun x _ => by simp)
    (by
      intro x hx
      rw [hvis x hx]
      simp [reachN])
    (by intro x _ k hk; simp at hk)
    (by intro x _ k hk; omega)
    (by
      intro x hx hnotin
      exfalso
      apply hnotin
      simp [hvis x hx])
    (by
      intro x hx
      rw [hvis x hx]
      refine ⟨[s], Chain.base, by simp, ?_, ?_, by simp⟩
      · intro y hy
        simp at hy
        rw [hy, Function.update_apply]
        simp
      · intro pr hpr
        simp [pairs] at hpr)
  simpa [bfs] using h

/-- Claim C6: for distinct endpoints, `bfs` returns `True` exactly when the
sink is reachable from the source through residual edges, and on success the
first-discovered parent pointers trace a duplicate-free residual path from
source to sink whose edge count is minimal among all residual walks
(fewest-hops shortest augmenting path). -/
theorem claim_C6 {n : ℕ} (cap flow : Mat n) (s t : Fin n) (hst : s ≠ t)
    (par : Fin n → Option (Fin n)) :
    ((bfs cap flow s t par).1 = true ↔
      ∃ k, reachN cap flow s k t = true) ∧
    ((bfs cap flow s t par).1 = true →
      ∃ l, Chain (bfs cap flow s t par).2 s t l ∧ l.Nodup ∧
        (∀ pr ∈ pairs l, resPos cap flow pr.1 pr.2 = true) ∧
        IsLeast {k | reachN cap flow s k t = true} (l.length - 1)) := by
  refine ⟨⟨?_, ?_⟩, bfs_dist cap flow s t hst par⟩
  · intro h
    obtain ⟨l, _, _, hres, hmem, _⟩ := bfs_dist cap flow s t hst par h
    exact ⟨l.length - 1, hmem⟩
  · intro ⟨k, hk⟩
    by_cases h : (bfs cap flow s t par).1 = true
    · exact h
    · exfalso
      obtain ⟨_, hfalse⟩ := bfs_spec cap flow s t hst par
      obtain ⟨V, hsV, htV, hcl⟩ := hfalse (by simpa using h)
      exact htV (reachN_mem_closed cap flow s V hsV hcl k t hk)

theorem claim_C6_witness :
    ((0 : Fin 3) ≠ 2) ∧
    (((bfs capW (fun _ _ => Val.num 0) 0 2 (fun _ => none)).1 = true ↔
       ∃ k, reachN capW (fun _ _ => Val.num 0) 0 k 2 = true) ∧
     ((bfs capW (fun _ _ => Val.num 0) 0 2 (fun _ => none)).1 = true →
       ∃ l, Chain (bfs capW (fun _ _ => Val.num 0) 0 2 (fun _ => none)).2
           0 2 l ∧ l.Nodup ∧
         (∀ pr ∈ pairs l,
           resPos capW (fun _ _ => Val.num 0) pr.1 pr.2 = true) ∧
         IsLeast {k | reachN capW (fun _ _ => Val.num 0) 0 k 2 = true}
           (l.length - 1))) :=
  ⟨by decide, claim_C6 capW (fun _ _ => Val.num 0) 0 2 (by decide)
    (fun _ => none)⟩

end Task1
